import Mathlib

/-!
Verification development for the dioxide static analyzer (Rust).

The Lean definitions below are a shallow embedding of the source modules:
  src/analyzer/mod.rs        (run_analysis, Issue)
  src/fixes/mod.rs           (apply_fixes)
  src/parser/mod.rs          (GoFile::get_snippet)
  src/analyzer/dead_code.rs  (check_unused_imports, check_unused_functions)
  src/analyzer/architecture.rs (check_circular_dependencies, find_cycle,
                                find_import_line)

Modelling conventions:
  - The tree-sitter parser is treated as a black box, as the design document
    specifies: a file model carries the results of the facade queries
    (snippets, positions, node lists) rather than raw trees.
  - File-system reads/writes and the per-category textual fixers are
    oracles (plain functions), so theorems quantify over every possible
    outcome of reads, fix attempts and writes; I/O calls are logged
    explicitly so that frame properties are statable.
  - Rust HashMap is modelled as an association list with replace-on-insert
    semantics and deterministic (first-insertion) order.
  - A Rust panic (out-of-bounds string slice) is modelled as Option.none.
  - The source text of the repository carries a uniformly appended trailing
    blank inside every string literal that ends in a word character (an
    artifact of the text the sources were shipped as); the embedding uses
    the evident intended literals without that trailing blank.
-/

namespace Dioxide

/-- Issue categories, from IssueType in src/analyzer/mod.rs. -/
inductive IssueType where
  | SyntaxKind
  | DeadCode
  | Style
  | Architecture
deriving DecidableEq, Repr

/-- Severities, from Severity in src/analyzer/mod.rs. -/
inductive Severity where
  | Error
  | Warning
  | Info
deriving DecidableEq, Repr

/-- A reported finding, from struct Issue in src/analyzer/mod.rs.
File paths are modelled as strings. -/
structure Issue where
  file_path : String
  line : Nat
  column : Nat
  issue_type : IssueType
  severity : Severity
  message : String
  code : String
  fix_available : Bool
deriving DecidableEq, Repr

/-! ## GoFile::get_snippet (src/parser/mod.rs, lines 31-37)

The source text is modelled as a list of characters, each carrying its
UTF-8 byte width, and offsets are byte offsets as in the Rust code.  The
Rust body is
  if start_byte >= len or end_byte > len then return empty string;
  content[start_byte..end_byte]
and the final str slice panics when start_byte > end_byte or when either
offset does not fall on a character boundary; both panics are modelled as
none. -/

/-- The UTF-8 encoding width of one character, as in Rust char::len_utf8. -/
def utf8Len (c : Char) : Nat :=
  if c.val < 0x80 then 1
  else if c.val < 0x800 then 2
  else if c.val < 0x10000 then 3
  else 4

/-- The UTF-8 byte length of a text, as in Rust str::len. -/
def byteLen (l : List Char) : Nat :=
  (l.map utf8Len).sum

/-- Drop the characters occupying the first n bytes; none when n does not
fall on a character boundary (or exceeds the text). -/
def dropBytes : List Char → Nat → Option (List Char)
  | l, 0 => some l
  | [], _ + 1 => none
  | c :: rest, n + 1 =>
    if utf8Len c ≤ n + 1 then dropBytes rest (n + 1 - utf8Len c) else none

/-- Take the characters occupying the first n bytes; none when n does not
fall on a character boundary (or exceeds the text). -/
def takeBytes : List Char → Nat → Option (List Char)
  | _, 0 => some []
  | [], _ + 1 => none
  | c :: rest, n + 1 =>
    if utf8Len c ≤ n + 1 then (takeBytes rest (n + 1 - utf8Len c)).map (fun r => c :: r)
    else none

/-- The Rust str slice content[s..e]: none models the panic, raised when
s exceeds e or either offset misses a character boundary. -/
def sliceBytes (l : List Char) (s e : Nat) : Option (List Char) :=
  if s ≤ e then
    match dropBytes l s with
    | none => none
    | some rest => takeBytes rest (e - s)
  else none

/-- GoFile::get_snippet: the empty string for out-of-range requests, the
byte slice otherwise. -/
def get_snippet (content : List Char) (start_byte end_byte : Nat) : Option (List Char) :=
  if start_byte ≥ byteLen content ∨ end_byte > byteLen content then some []
  else sliceBytes content start_byte end_byte

/-- A byte offset lying on a character boundary of the text. -/
def IsBoundary (l : List Char) (n : Nat) : Prop :=
  ∃ l1 l2, l = l1 ++ l2 ∧ byteLen l1 = n

/-! ## apply_fixes (src/fixes/mod.rs, lines 9-69) -/

/-- Oracles for the environment of apply_fixes: the outcome of
fs::read_to_string (none models an I/O error), the three per-category
fixers fix_syntax_issue / fix_dead_code_issue / fix_style_issue (each
returns whether it fixed the issue together with the updated buffer), and
the outcome of fs::write. -/
structure FixEnv where
  readFile : String → Option String
  fixSyntax : Issue → String → Bool × String
  fixDeadCode : Issue → String → Bool × String
  fixStyle : Issue → String → Bool × String
  writeOk : String → String → Bool

/-- The dispatch on issue_type inside the second loop of apply_fixes;
Architecture issues are never fixed and leave the buffer unchanged. -/
def runFix (env : FixEnv) (issue : Issue) (content : String) : Bool × String :=
  match issue.issue_type with
  | .SyntaxKind => env.fixSyntax issue content
  | .DeadCode => env.fixDeadCode issue content
  | .Style => env.fixStyle issue content
  | .Architecture => (false, content)

/-- The modified_files map: association list from file path to buffer. -/
abbrev FileMap := List (String × String)

/-- HashMap::contains_key. -/
def fmContains (m : FileMap) (k : String) : Bool :=
  m.any (fun p => p.1 == k)

/-- HashMap::get. -/
def fmGet (m : FileMap) (k : String) : Option String :=
  (m.find? (fun p => p.1 == k)).map Prod.snd

/-- HashMap::get_mut followed by assignment: replace the value at key k. -/
def fmSet (m : FileMap) (k v : String) : FileMap :=
  m.map (fun p => if p.1 == k then (k, v) else p)

/-- The body of the first loop of apply_fixes: for a fixable issue whose
file is not in the map yet, read the file; on a read error print to
stderr and continue (nothing is inserted).  A log of attempted reads is
kept alongside the map. -/
def readStep (env : FixEnv) (acc : FileMap × List String) (issue : Issue) :
    FileMap × List String :=
  if !issue.fix_available then acc
  else if fmContains acc.1 issue.file_path then acc
  else
    match env.readFile issue.file_path with
    | some content => (acc.1 ++ [(issue.file_path, content)], acc.2 ++ [issue.file_path])
    | none => (acc.1, acc.2 ++ [issue.file_path])

/-- The first loop of apply_fixes. -/
def readPhase (env : FixEnv) (issues : List Issue) : FileMap × List String :=
  issues.foldl (readStep env) ([], [])

/-- The body of the second loop of apply_fixes: for a fixable issue whose
file is in the map, run the per-category fixer against the in-memory
buffer and count a success. -/
def fixStep (env : FixEnv) (acc : FileMap × Nat) (issue : Issue) : FileMap × Nat :=
  if !issue.fix_available then acc
  else
    match fmGet acc.1 issue.file_path with
    | none => acc
    | some content =>
      let r := runFix env issue content
      (fmSet acc.1 issue.file_path r.2, if r.1 then acc.2 + 1 else acc.2)

/-- The second loop of apply_fixes. -/
def fixPhase (env : FixEnv) (issues : List Issue) (m0 : FileMap) : FileMap × Nat :=
  issues.foldl (fixStep env) (m0, 0)

/-- The body of the third loop of apply_fixes: write the buffered file; if
the write fails, count the fixable issues of that file and subtract them
from the running total unless that count exceeds it.  A log of attempted
writes is kept alongside the count. -/
def writeStep (env : FixEnv) (issues : List Issue) (acc : Nat × List (String × String))
    (entry : String × String) : Nat × List (String × String) :=
  if env.writeOk entry.1 entry.2 then (acc.1, acc.2 ++ [entry])
  else
    let n := (issues.filter (fun i => i.fix_available && i.file_path == entry.1)).length
    (if n ≤ acc.1 then acc.1 - n else acc.1, acc.2 ++ [entry])

/-- The third loop of apply_fixes. -/
def writePhase (env : FixEnv) (issues : List Issue) (m : FileMap) (cnt0 : Nat) :
    Nat × List (String × String) :=
  m.foldl (writeStep env issues) (cnt0, [])

/-- Result of apply_fixes together with the logged I/O effects. -/
structure FixResult where
  result : Except String Nat
  reads : List String
  writes : List (String × String)
deriving Repr

/-- apply_fixes from src/fixes/mod.rs: three sequential loops, and the
function always returns Ok of the final count (every error path inside
prints to stderr/stdout and continues). -/
def apply_fixes (env : FixEnv) (issues : List Issue) : FixResult :=
  let r := readPhase env issues
  let f := fixPhase env issues r.1
  let w := writePhase env issues f.1 f.2
  { result := .ok w.1, reads := r.2, writes := w.2 }

/-- The effect of one attempted write on the disk. -/
def diskStep (env : FixEnv) (d : String → String) (e : String × String) :
    String → String :=
  if env.writeOk e.1 e.2 then (fun p => if p == e.1 then e.2 else d p) else d

/-- The on-disk state after the run: each attempted write that succeeds
replaces the file content. -/
def diskAfter (env : FixEnv) (issues : List Issue) (disk : String → String) :
    String → String :=
  (apply_fixes env issues).writes.foldl (diskStep env) disk

/-! ## run_analysis (src/analyzer/mod.rs, lines 98-119)

The directory walk is abstracted to a list of walk results: each entry is
either a walkdir error or a discovered path with its is_file / is_go_file /
is_excluded classification and the outcome of analyze_file on it
(analyze_file propagates a parse or I/O failure of parse_file and of the
rule passes through the question-mark operator). -/

/-- One discovered path with its classification and analysis outcome. -/
structure FileEntry where
  is_file : Bool
  is_go : Bool
  excluded : Bool
  analysis : Except String (List Issue)

/-- One result yielded by the WalkDir iterator. -/
inductive WalkEntry where
  | err : String → WalkEntry
  | found : FileEntry → WalkEntry

/-- The body of the walk loop: a walkdir error or an analyze_file error
aborts via the question-mark operator; an entry failing the
is_file / is_go_file / not-excluded filter is skipped. -/
def analyzeStep (acc : Except String (List Issue)) (e : WalkEntry) :
    Except String (List Issue) :=
  match acc with
  | .error msg => .error msg
  | .ok issues =>
    match e with
    | .err msg => .error msg
    | .found f =>
      if f.is_file && f.is_go && !f.excluded then
        match f.analysis with
        | .error msg => .error msg
        | .ok new_issues => .ok (issues ++ new_issues)
      else .ok issues

/-- The root argument of run_analysis: existence, the single-file branch
data, and the walk results for the directory branch. -/
structure RootModel where
  root_exists : Bool
  root_is_file : Bool
  root_is_go : Bool
  root_analysis : Except String (List Issue)
  walk : List WalkEntry

/-- run_analysis from src/analyzer/mod.rs: error when the root does not
exist; for a file root, analyze it when it is a Go file; otherwise fold
the walk, aborting at the first entry error or analyze_file failure. -/
def run_analysis (m : RootModel) : Except String (List Issue) :=
  if !m.root_exists then .error "Path does not exist"
  else if m.root_is_file then
    (if m.root_is_go then m.root_analysis else .ok [])
  else m.walk.foldl analyzeStep (.ok [])

/-- A walk entry that does not make the loop abort: not a walkdir error,
and if selected for analysis then its analysis succeeded. -/
def entryOk (e : WalkEntry) : Bool :=
  match e with
  | .err _ => false
  | .found f =>
    if f.is_file && f.is_go && !f.excluded then f.analysis.isOk else true

/-! ## dead_code checks (src/analyzer/dead_code.rs)

A file is modelled by the results of the facade queries the checks
perform: the import specs (path snippet with its quotes, optional alias
snippet, position of the spec node), the operand snippets of
selector_expression nodes, the package-child snippets of type_identifier /
qualified_type / type_assertion_expression nodes, the function
declarations (name snippet, byte range, position) and the callee snippets
of call_expression nodes whose function child is a plain identifier. -/

/-- One import_spec node as the check reads it. -/
structure ImportSpec where
  path : String
  import_alias : Option String
  line : Nat
  column : Nat
deriving DecidableEq, Repr

/-- One function_declaration node as the check reads it. -/
structure FuncDecl where
  name : String
  startByte : Nat
  endByte : Nat
  line : Nat
  column : Nat
deriving DecidableEq, Repr

/-- The facade view of one parsed file. -/
structure GoFileModel where
  content : List Char
  imports : List ImportSpec
  selector_operands : List String
  type_ident_packages : List String
  qualified_type_packages : List String
  type_assertion_packages : List String
  func_decls : List FuncDecl
  call_identifiers : List String
deriving Repr

/-- Rust str::trim_matches with a double-quote pattern: strip every
leading and trailing double quote. -/
def trimQuotes (s : String) : String :=
  (((s.toList.dropWhile (fun c => c == '"')).reverse.dropWhile
    (fun c => c == '"')).reverse).asString

/-- Rust str::split at the slash character, on a character list; an empty
input yields one empty segment, like Rust split. -/
def splitOnSlash : List Char → List (List Char)
  | [] => [[]]
  | c :: rest =>
    let r := splitOnSlash rest
    if c == '/' then [] :: r
    else
      match r with
      | [] => [[c]]
      | h :: t => (c :: h) :: t

/-- extract_package_name from src/analyzer/dead_code.rs: strip quotes and
take the last slash-separated segment. -/
def extract_package_name (import_path : String) : String :=
  ((splitOnSlash (trimQuotes import_path).toList).getLast?.getD []).asString

/-- HashMap::insert modelled on an association list: replace the value
when the key is present, append otherwise. -/
def mapInsert {α : Type} (m : List (String × α)) (k : String) (v : α) :
    List (String × α) :=
  if m.any (fun p => p.1 == k) then m.map (fun p => if p.1 == k then (k, v) else p)
  else m ++ [(k, v)]

/-- The value stored per import key: path snippet, position, alias. -/
structure ImportInfo where
  import_path : String
  line : Nat
  column : Nat
  import_alias : Option String
deriving DecidableEq, Repr

/-- One step of the import-collection loop of check_unused_imports: specs
whose alias snippet is the blank identifier or the dot wildcard are
skipped; otherwise the spec is inserted keyed by its last path segment, a
later spec with the same key overwriting. -/
def importStep (m : List (String × ImportInfo)) (spec : ImportSpec) :
    List (String × ImportInfo) :=
  if spec.import_alias == some "_" then m
  else if spec.import_alias == some "." then m
  else mapInsert m (extract_package_name spec.path)
    ⟨spec.path, spec.line, spec.column, spec.import_alias⟩

/-- The imports HashMap of check_unused_imports. -/
def buildImportsMap (specs : List ImportSpec) : List (String × ImportInfo) :=
  specs.foldl importStep []

/-- The used_imports set of check_unused_imports: trimmed snippets
collected from the four reference-position queries. -/
def usedImports (f : GoFileModel) : List String :=
  f.selector_operands.map String.trim ++ f.type_ident_packages.map String.trim
    ++ f.qualified_type_packages.map String.trim
    ++ f.type_assertion_packages.map String.trim

/-- The is_used test of the final loop of check_unused_imports. -/
def importIsUsed (f : GoFileModel) (package : String) (info : ImportInfo) : Bool :=
  match info.import_alias with
  | some alias_val => (usedImports f).contains (trimQuotes alias_val)
  | none => (usedImports f).contains (trimQuotes package)

/-- The finding built for an unused import entry. -/
def importIssue (path : String) (p : String × ImportInfo) : Issue :=
  { file_path := path, line := p.2.line, column := p.2.column,
    issue_type := .DeadCode, severity := .Warning,
    message := "Unused import: " ++ p.2.import_path,
    code := p.2.import_path, fix_available := true }

/-- check_unused_imports from src/analyzer/dead_code.rs: one Warning
DeadCode finding, fixable, for every entry of the imports map whose key
(or alias) does not occur in the used set. -/
def check_unused_imports (path : String) (f : GoFileModel) : List Issue :=
  (buildImportsMap f.imports).filterMap (fun p =>
    if importIsUsed f p.1 p.2 then none else some (importIssue path p))

/-- The leading-uppercase test of check_unused_functions (modelled with
ASCII uppercase). -/
def firstCharUpper (s : String) : Bool :=
  (s.toList.head?.map Char.isUpper).getD false

/-- One step of the function-collection loop of check_unused_functions:
main, init and uppercase-initial names are skipped; otherwise the
declaration is inserted keyed by its name, a later declaration with the
same name overwriting. -/
def functionStep (m : List (String × (Nat × Nat))) (d : FuncDecl) :
    List (String × (Nat × Nat)) :=
  if d.name == "main" then m
  else if d.name == "init" then m
  else if firstCharUpper d.name then m
  else mapInsert m d.name (d.line, d.column)

/-- The functions HashMap of check_unused_functions. -/
def buildFunctionsMap (decls : List FuncDecl) : List (String × (Nat × Nat)) :=
  decls.foldl functionStep []

/-- find_function_range from src/analyzer/dead_code.rs: the byte range of
the first function_declaration with the given name, (0, 0) otherwise. -/
def find_function_range (decls : List FuncDecl) (func_name : String) : Nat × Nat :=
  match decls.find? (fun d => d.name == func_name) with
  | some d => (d.startByte, d.endByte)
  | none => (0, 0)

/-- The finding built for an unused function entry.  The evidence snippet
re-queries the declaration range through find_function_range; the getD
default stands for the slice panic, which node byte ranges cannot raise
since they lie on character boundaries. -/
def funcIssue (path : String) (f : GoFileModel) (p : String × (Nat × Nat)) : Issue :=
  let r := find_function_range f.func_decls p.1
  let func_snippet :=
    if r.1 < r.2 then ((get_snippet f.content r.1 r.2).getD []).asString else p.1
  { file_path := path, line := p.2.1, column := p.2.2,
    issue_type := .DeadCode, severity := .Warning,
    message := "Unused function: " ++ p.1,
    code := if func_snippet.length > 100 then p.1 else func_snippet,
    fix_available := true }

/-- check_unused_functions from src/analyzer/dead_code.rs: one Warning
DeadCode finding, fixable, for every entry of the functions map whose name
is not among the identifier callees. -/
def check_unused_functions (path : String) (f : GoFileModel) : List Issue :=
  (buildFunctionsMap f.func_decls).filterMap (fun p =>
    if f.call_identifiers.contains p.1 then none else some (funcIssue path f p))

/-! ## circular-dependency check (src/analyzer/architecture.rs)

The dependency graph built by the scan loop is taken as input, as the
claims state it: an association list from package identifier to the list
of import strings of that package.  The invoking file is abstracted to its
package identifier plus the list of its import path snippets (with their
quotes) paired with the line each spec starts on, which is what
find_import_line re-reads from it. -/

abbrev DepGraph := List (String × List String)

/-- HashMap::get on the dependency graph. -/
def lookupGraph (g : DepGraph) (k : String) : Option (List String) :=
  (g.find? (fun p => p.1 == k)).map Prod.snd

/-- The set of package identifiers that key the graph. -/
def graphKeys (g : DepGraph) : Finset String :=
  (g.map Prod.fst).toFinset

/-- A graph key is one of the mapped keys. -/
theorem mem_graphKeys_of_lookup {g : DepGraph} {c : String} {d : List String}
    (h : lookupGraph g c = some d) : c ∈ graphKeys g := by
  unfold lookupGraph at h
  cases hf : g.find? (fun p => p.1 == c) with
  | none => rw [hf] at h; cases h
  | some pr =>
    have hmem := List.mem_of_find?_eq_some hf
    have hkey := List.find?_some hf
    have : pr.1 = c := by simpa using hkey
    subst this
    unfold graphKeys
    simp only [List.mem_toFinset, List.mem_map]
    exact ⟨pr, hmem, rfl⟩

/-- find_cycle from src/analyzer/architecture.rs: depth-first search with
a cloned visited set and path stack; reaching a package already visited
closes the cycle as the path slice from its first occurrence, with the
package appended.  Termination: each recursive call removes one unvisited
graph key. -/
def find_cycle (g : DepGraph) (current : String) (visited : List String)
    (path : List String) : Option (List String) :=
  if hv : visited.contains current then
    match path.findIdx? (fun p => p == current) with
    | some start_idx => some (path.drop start_idx ++ [current])
    | none => none
  else
    match hg : lookupGraph g current with
    | none => none
    | some deps =>
      deps.findSome? (fun dep => find_cycle g dep (current :: visited) (path ++ [current]))
termination_by (graphKeys g \ visited.toFinset).card
decreasing_by
  have hc : current ∈ graphKeys g := mem_graphKeys_of_lookup hg
  have hnv : current ∉ visited.toFinset := by
    simp only [List.mem_toFinset]
    intro hmem
    exact hv (by simpa using hmem)
  have hins : (current :: visited).toFinset = insert current visited.toFinset := by
    simp [List.toFinset_cons]
  rw [hins, Finset.sdiff_insert]
  exact Finset.card_erase_lt_of_mem (Finset.mem_sdiff.mpr ⟨hc, hnv⟩)

/-- Fuel-indexed restatement of find_cycle by structural recursion; fuel
zero answers none. -/
def find_cycleFuel : Nat → DepGraph → String → List String → List String →
    Option (List String)
  | 0, _, _, _, _ => none
  | fuel + 1, g, current, visited, path =>
    if visited.contains current then
      match path.findIdx? (fun p => p == current) with
      | some start_idx => some (path.drop start_idx ++ [current])
      | none => none
    else
      match lookupGraph g current with
      | none => none
      | some deps =>
        deps.findSome? (fun dep =>
          find_cycleFuel fuel g dep (current :: visited) (path ++ [current]))

/-- Whether the second list is an initial segment of the first. -/
def listStartsWith : List Char → List Char → Bool
  | _, [] => true
  | [], _ :: _ => false
  | a :: s, b :: t => a == b && listStartsWith s t

/-- Whether the second list occurs contiguously inside the first. -/
def subOccurs : List Char → List Char → Bool
  | [], t => listStartsWith [] t
  | a :: rest, t => listStartsWith (a :: rest) t || subOccurs rest t

/-- Rust str::contains as a substring test. -/
def containsSubstr (s t : String) : Bool :=
  subOccurs s.toList t.toList

/-- find_import_line from src/analyzer/architecture.rs on the abstracted
file: the line of the first import spec whose path snippet contains the
package string. -/
def find_import_line (import_snippets : List (String × Nat)) (import_pkg : String) :
    Option Nat :=
  (import_snippets.find? (fun s => containsSubstr s.1 import_pkg)).map Prod.snd

/-- Rust Vec::join with a separator. -/
def joinArrow (cycle : List String) : String :=
  String.intercalate " -> " cycle

/-- check_circular_dependencies from src/analyzer/architecture.rs, after
the graph is built: run find_cycle from the current package with empty
visited set and path; when a cycle is found, look up the import line of
its last element in the invoking file; when that lookup fails no finding
is emitted. -/
def check_circular_dependencies (g : DepGraph) (current_package : String)
    (current_imports : List (String × Nat)) (current_file : String) : Option Issue :=
  match find_cycle g current_package [] [] with
  | none => none
  | some cycle =>
    match find_import_line current_imports ((cycle.getLast?).getD "") with
    | none => none
    | some line =>
      some { file_path := current_file, line := line, column := 1,
             issue_type := .Architecture, severity := .Error,
             message := "Circular dependency detected: " ++ joinArrow cycle,
             code := "Circular dependency path: " ++ joinArrow cycle,
             fix_available := false }

/-- An edge of the dependency graph. -/
def edgeB (g : DepGraph) (a b : String) : Bool :=
  match lookupGraph g a with
  | some deps => deps.contains b
  | none => false

/-- A genuine package cycle: at least two entries, closing on its first
entry, every consecutive pair an edge. -/
def IsCycleIn (g : DepGraph) (cy : List String) : Prop :=
  2 ≤ cy.length ∧ cy.head? = cy.getLast? ∧ List.Chain' (fun a b => edgeB g a b = true) cy

/-! ## Helper lemmas about the cycle search -/

/-- findSome? only depends on the values of the function on the list. -/
theorem findSome?_congr {α β : Type} {l : List α} {f g : α → Option β}
    (h : ∀ a ∈ l, f a = g a) : l.findSome? f = l.findSome? g := by
  induction l with
  | nil => rfl
  | cons a l ih =>
    have ha := h a (by simp)
    have hrest : ∀ x ∈ l, f x = g x := fun x hx => h x (by simp [hx])
    cases hga : g a with
    | none =>
      rw [List.findSome?_cons_of_isNone _ (by simp [ha, hga]),
        List.findSome?_cons_of_isNone _ (by simp [hga])]
      exact ih hrest
    | some b =>
      rw [List.findSome?_cons_of_isSome _ (by simp [ha, hga]),
        List.findSome?_cons_of_isSome _ (by simp [hga]), ha]

/-- With fuel exceeding the number of unvisited graph keys, the fuel-
indexed search agrees with find_cycle: the recursion never exhausts the
fuel because every nested call removes one unvisited key. -/
theorem find_cycleFuel_eq (fuel : Nat) (g : DepGraph) (current : String)
    (visited path : List String)
    (h : (graphKeys g \ visited.toFinset).card < fuel) :
    find_cycleFuel fuel g current visited path = find_cycle g current visited path := by
  induction fuel generalizing current visited path with
  | zero => omega
  | succ fuel ih =>
    rw [find_cycle]
    by_cases hv : visited.contains current = true
    · simp only [find_cycleFuel, hv, if_true, dif_pos]
    · simp only [find_cycleFuel, hv, if_false, dif_neg, Bool.false_eq_true, not_false_iff]
      cases hg : lookupGraph g current with
      | none => rfl
      | some deps =>
        apply findSome?_congr
        intro dep hdep
        apply ih
        have hc : current ∈ graphKeys g := mem_graphKeys_of_lookup hg
        have hnv : current ∉ visited.toFinset := by
          simp only [List.mem_toFinset]
          intro hmem
          exact hv (by simpa using hmem)
        have hins : (current :: visited).toFinset = insert current visited.toFinset := by
          simp [List.toFinset_cons]
        rw [hins, Finset.sdiff_insert]
        have hlt := Finset.card_erase_lt_of_mem (Finset.mem_sdiff.mpr ⟨hc, hnv⟩)
        omega

/-- Soundness of the fuel-indexed search: when the path stack extended by
the current package is a chain of graph edges, any returned list is a
genuine package cycle of the graph. -/
theorem find_cycleFuel_sound (fuel : Nat) (g : DepGraph) :
    ∀ (current : String) (visited path cy : List String),
    List.Chain' (fun a b => edgeB g a b = true) (path ++ [current]) →
    find_cycleFuel fuel g current visited path = some cy →
    IsCycleIn g cy := by
  induction fuel with
  | zero => intro c v p cy _ h; cases h
  | succ fuel ih =>
    intro current visited path cy hch h
    by_cases hv : visited.contains current = true
    · rw [find_cycleFuel, if_pos hv] at h
      cases hidx : path.findIdx? (fun p => p == current) with
      | none => rw [hidx] at h; cases h
      | some i =>
        rw [hidx] at h
        have hcy : path.drop i ++ [current] = cy := by simpa using h
        obtain ⟨hlt, hbeq, -⟩ := List.findIdx?_eq_some_iff_getElem.mp hidx
        have hcur : path[i] = current := by simpa using hbeq
        subst hcy
        refine ⟨?_, ?_, ?_⟩
        · have hdl : (path.drop i).length = path.length - i := by simp
          simp only [List.length_append, List.length_singleton, hdl]
          omega
        · have h1 : (path.drop i ++ [current]).head? = some current := by
            have hne : path.drop i ≠ [] := by
              intro hemp
              have h0 : (path.drop i).length = 0 := by rw [hemp]; rfl
              simp at h0
              omega
            rw [List.head?_append_of_ne_nil _ hne]
            rw [List.head?_drop]
            simp [List.getElem?_eq_getElem hlt, hcur]
          rw [h1, List.getLast?_concat]
        · have hrw : path.drop i ++ [current] = (path ++ [current]).drop i := by
            rw [List.drop_append_of_le_length (Nat.le_of_lt hlt)]
          rw [hrw]
          exact hch.suffix (List.drop_suffix i _)
    · rw [find_cycleFuel] at h
      rw [if_neg hv] at h
      cases hg : lookupGraph g current with
      | none => rw [hg] at h; cases h
      | some deps =>
        rw [hg] at h
        obtain ⟨dep, hdep, hfd⟩ := List.exists_of_findSome?_eq_some h
        apply ih dep (current :: visited) (path ++ [current]) cy ?_ hfd
        rw [List.chain'_append]
        refine ⟨hch, List.chain'_singleton dep, ?_⟩
        intro x hx y hy
        have hx' : current = x := by
          rw [List.getLast?_concat] at hx
          simpa using hx
        have hy' : dep = y := by simpa using hy
        subst hx'; subst hy'
        unfold edgeB
        rw [hg]
        simpa using hdep

/-- Soundness of find_cycle as the analyzer invokes it: any returned list
is a genuine package cycle of the graph. -/
theorem find_cycle_sound (g : DepGraph) (current : String) (cy : List String)
    (h : find_cycle g current [] [] = some cy) : IsCycleIn g cy := by
  have hf : find_cycleFuel ((graphKeys g \ ([] : List String).toFinset).card + 1)
      g current [] [] = some cy := by
    rw [find_cycleFuel_eq _ _ _ _ _ (by omega)]
    exact h
  exact find_cycleFuel_sound _ g current [] [] cy (by simp) hf

/-- Along a strictly rank-decreasing chain the rank of the last entry is
below the rank of the first. -/
theorem chain'_head_lt_getLast (f : String → Nat) :
    ∀ (cy : List String) (x y : String),
    List.Chain' (fun a b => f b < f a) cy → cy.head? = some x →
    cy.getLast? = some y → 2 ≤ cy.length → f y < f x := by
  intro cy
  induction cy with
  | nil => intro x y _ hx _ _; cases hx
  | cons a l ih =>
    intro x y hch hx hy hlen
    have hax : a = x := by simpa using hx
    subst hax
    cases l with
    | nil => simp at hlen
    | cons b t =>
      have hab : f b < f a := (List.chain'_cons.mp hch).1
      have hch' : List.Chain' (fun u v => f v < f u) (b :: t) := (List.chain'_cons.mp hch).2
      have hy' : (b :: t).getLast? = some y := by
        rw [List.getLast?_cons_cons] at hy; exact hy
      cases t with
      | nil =>
        have hby : b = y := by simpa using hy'
        subst hby
        exact hab
      | cons c t' =>
        have hyb := ih b y hch' rfl hy' (by simp)
        omega

/-- A graph whose every edge strictly decreases some rank has no cycle. -/
theorem rank_acyclic (g : DepGraph) (f : String → Nat)
    (hf : ∀ pr ∈ g, ∀ b ∈ pr.2, f b < f pr.1) : ∀ cy, ¬ IsCycleIn g cy := by
  rintro cy ⟨hlen, hhl, hch⟩
  have hR : ∀ x y : String, edgeB g x y = true → f y < f x := by
    intro x y hxy
    unfold edgeB at hxy
    cases hg : lookupGraph g x with
    | none => rw [hg] at hxy; cases hxy
    | some deps =>
      rw [hg] at hxy
      unfold lookupGraph at hg
      cases hfind : g.find? (fun p => p.1 == x) with
      | none => rw [hfind] at hg; cases hg
      | some pr =>
        rw [hfind] at hg
        have hpr : pr.2 = deps := by simpa using hg
        have hmem := List.mem_of_find?_eq_some hfind
        have hx : pr.1 = x := by simpa using List.find?_some hfind
        have hy : y ∈ deps := by simpa using hxy
        have hlt := hf pr hmem y (hpr ▸ hy)
        exact hx ▸ hlt
  have hchain : List.Chain' (fun a b => f b < f a) cy := hch.imp (fun {a b} h => hR a b h)
  cases cy with
  | nil => simp at hlen
  | cons a l =>
    cases hlast : (a :: l).getLast? with
    | none => simp [List.getLast?_eq_none_iff] at hlast
    | some y =>
      have hay : a = y := by rw [hlast] at hhl; simpa using hhl
      have hlt := chain'_head_lt_getLast f (a :: l) a y hchain rfl hlast hlen
      subst hay
      exact absurd hlt (lt_irrefl _)

/-! ## Claim C4 and claim C10 -/

/-- Claim C4, counterexample.  On the dependency graph with exactly the
edges A to B, B to C and C to A, where each package's file imports exactly
its successor, the depth-first search does find the non-empty cycle
A, B, C, A, yet check_circular_dependencies emits no finding from any of
the three packages: the cycle returned from package X ends in X itself,
and the line lookup scans X's file for an import containing X, which
fails, so the finding is silently dropped.  The claim asserts a non-empty
finding is produced. -/
theorem cycle_check_counterexample :
    find_cycle [("A", ["B"]), ("B", ["C"]), ("C", ["A"])] "A" [] [] =
      some ["A", "B", "C", "A"] ∧
    check_circular_dependencies [("A", ["B"]), ("B", ["C"]), ("C", ["A"])] "A"
      [("\"B\"", 3)] "a.go" = none ∧
    check_circular_dependencies [("A", ["B"]), ("B", ["C"]), ("C", ["A"])] "B"
      [("\"C\"", 5)] "b.go" = none ∧
    check_circular_dependencies [("A", ["B"]), ("B", ["C"]), ("C", ["A"])] "C"
      [("\"A\"", 7)] "c.go" = none := by
  have hA : find_cycle [("A", ["B"]), ("B", ["C"]), ("C", ["A"])] "A" [] [] =
      some ["A", "B", "C", "A"] := by
    rw [← find_cycleFuel_eq 4 _ _ _ _ (by decide)]
    decide
  have hB : find_cycle [("A", ["B"]), ("B", ["C"]), ("C", ["A"])] "B" [] [] =
      some ["B", "C", "A", "B"] := by
    rw [← find_cycleFuel_eq 4 _ _ _ _ (by decide)]
    decide
  have hC : find_cycle [("A", ["B"]), ("B", ["C"]), ("C", ["A"])] "C" [] [] =
      some ["C", "A", "B", "C"] := by
    rw [← find_cycleFuel_eq 4 _ _ _ _ (by decide)]
    decide
  refine ⟨hA, ?_, ?_, ?_⟩
  · simp only [check_circular_dependencies, hA]
    decide
  · simp only [check_circular_dependencies, hB]
    decide
  · simp only [check_circular_dependencies, hC]
    decide

/-- Claim C4, amended.  For every acyclic dependency graph the check
produces no finding from any package; and on the graph with exactly the
edges A to B, B to C and C to A, invoked from any of the three packages,
the depth-first search returns a non-empty cycle but the check still
emits no finding, because the cycle's last element is the invoking
package itself and the invoking file contains no import mentioning it. -/
theorem cycle_check_acyclic_and_silent_drop :
    (∀ g : DepGraph, (∀ cy, ¬ IsCycleIn g cy) →
      ∀ pkg imps file, check_circular_dependencies g pkg imps file = none) ∧
    ((∃ cy, find_cycle [("A", ["B"]), ("B", ["C"]), ("C", ["A"])] "A" [] [] = some cy ∧
        cy ≠ []) ∧
      ∀ ln : Nat, check_circular_dependencies [("A", ["B"]), ("B", ["C"]), ("C", ["A"])]
        "A" [("\"B\"", ln)] "a.go" = none) ∧
    ((∃ cy, find_cycle [("A", ["B"]), ("B", ["C"]), ("C", ["A"])] "B" [] [] = some cy ∧
        cy ≠ []) ∧
      ∀ ln : Nat, check_circular_dependencies [("A", ["B"]), ("B", ["C"]), ("C", ["A"])]
        "B" [("\"C\"", ln)] "b.go" = none) ∧
    ((∃ cy, find_cycle [("A", ["B"]), ("B", ["C"]), ("C", ["A"])] "C" [] [] = some cy ∧
        cy ≠ []) ∧
      ∀ ln : Nat, check_circular_dependencies [("A", ["B"]), ("B", ["C"]), ("C", ["A"])]
        "C" [("\"A\"", ln)] "c.go" = none) := by
  have hA : find_cycle [("A", ["B"]), ("B", ["C"]), ("C", ["A"])] "A" [] [] =
      some ["A", "B", "C", "A"] := by
    rw [← find_cycleFuel_eq 4 _ _ _ _ (by decide)]
    decide
  have hB : find_cycle [("A", ["B"]), ("B", ["C"]), ("C", ["A"])] "B" [] [] =
      some ["B", "C", "A", "B"] := by
    rw [← find_cycleFuel_eq 4 _ _ _ _ (by decide)]
    decide
  have hC : find_cycle [("A", ["B"]), ("B", ["C"]), ("C", ["A"])] "C" [] [] =
      some ["C", "A", "B", "C"] := by
    rw [← find_cycleFuel_eq 4 _ _ _ _ (by decide)]
    decide
  refine ⟨?_, ⟨⟨_, hA, by decide⟩, ?_⟩, ⟨⟨_, hB, by decide⟩, ?_⟩, ⟨⟨_, hC, by decide⟩, ?_⟩⟩
  · intro g hac pkg imps file
    unfold check_circular_dependencies
    cases hc : find_cycle g pkg [] [] with
    | none => rfl
    | some cy => exact absurd (find_cycle_sound g pkg cy hc) (hac cy)
  · intro ln
    have hfi : find_import_line [("\"B\"", ln)] "A" = none := by
      have hcs : containsSubstr "\"B\"" "A" = false := by decide
      simp [find_import_line, List.find?_cons, hcs]
    simp only [check_circular_dependencies, hA]
    have hg : ((["A", "B", "C", "A"] : List String).getLast?).getD "" = "A" := by decide
    rw [hg, hfi]
  · intro ln
    have hfi : find_import_line [("\"C\"", ln)] "B" = none := by
      have hcs : containsSubstr "\"C\"" "B" = false := by decide
      simp [find_import_line, List.find?_cons, hcs]
    simp only [check_circular_dependencies, hB]
    have hg : ((["B", "C", "A", "B"] : List String).getLast?).getD "" = "B" := by decide
    rw [hg, hfi]
  · intro ln
    have hfi : find_import_line [("\"A\"", ln)] "C" = none := by
      have hcs : containsSubstr "\"A\"" "C" = false := by decide
      simp [find_import_line, List.find?_cons, hcs]
    simp only [check_circular_dependencies, hC]
    have hg : ((["C", "A", "B", "C"] : List String).getLast?).getD "" = "C" := by decide
    rw [hg, hfi]

/-- Claim C4, witness: the amended theorem applied to the concrete
acyclic graph with the single edge A to B (acyclic by the rank 1, 0) and
to package B of the three-cycle at line 9. -/
theorem cycle_check_acyclic_and_silent_drop_witness :
    check_circular_dependencies [("A", ["B"]), ("B", [])] "A" [("\"B\"", 2)] "a.go" = none ∧
    check_circular_dependencies [("A", ["B"]), ("B", ["C"]), ("C", ["A"])] "B"
      [("\"C\"", 9)] "b.go" = none := by
  constructor
  · exact cycle_check_acyclic_and_silent_drop.1 [("A", ["B"]), ("B", [])]
      (rank_acyclic _ (fun s => if s = "A" then 1 else 0) (by decide))
      "A" [("\"B\"", 2)] "a.go"
  · exact cycle_check_acyclic_and_silent_drop.2.2.1.2 9

/-- Claim C10: find_cycle terminates on every finite dependency graph and
every starting package with recursion depth bounded by the number of
package identifiers keying the graph: with any fuel exceeding that number,
the structurally recursive fuel-indexed search already computes
find_cycle, so the well-founded recursion never needs more nested calls
than there are packages. -/
theorem find_cycle_terminates_bounded (g : DepGraph) (current : String) (fuel : Nat)
    (h : (graphKeys g).card < fuel) :
    find_cycleFuel fuel g current [] [] = find_cycle g current [] [] :=
  find_cycleFuel_eq fuel g current [] [] (by simpa using h)

/-- Claim C10, witness: the bound instantiated on the three-package cycle
graph with fuel four. -/
theorem find_cycle_terminates_bounded_witness :
    (graphKeys [("A", ["B"]), ("B", ["C"]), ("C", ["A"])]).card < 4 ∧
    find_cycleFuel 4 [("A", ["B"]), ("B", ["C"]), ("C", ["A"])] "A" [] [] =
      find_cycle [("A", ["B"]), ("B", ["C"]), ("C", ["A"])] "A" [] [] :=
  ⟨by decide, find_cycle_terminates_bounded [("A", ["B"]), ("B", ["C"]), ("C", ["A"])]
    "A" 4 (by decide)⟩

/-! ## Claim C7 -/

/-- One step of dropBytes on a positive byte count. -/
theorem dropBytes_cons (c : Char) (rest : List Char) (m : Nat) :
    dropBytes (c :: rest) (m + 1) =
      if utf8Len c ≤ m + 1 then dropBytes rest (m + 1 - utf8Len c) else none := rfl

/-- One step of takeBytes on a positive byte count. -/
theorem takeBytes_cons (c : Char) (rest : List Char) (m : Nat) :
    takeBytes (c :: rest) (m + 1) =
      if utf8Len c ≤ m + 1 then (takeBytes rest (m + 1 - utf8Len c)).map (fun r => c :: r)
      else none := rfl

/-- dropBytes at offset zero keeps the whole text. -/
theorem dropBytes_zero (l : List Char) : dropBytes l 0 = some l := by
  cases l with
  | nil => rfl
  | cons c t => rfl

/-- takeBytes at offset zero takes nothing. -/
theorem takeBytes_zero (l : List Char) : takeBytes l 0 = some [] := by
  cases l with
  | nil => rfl
  | cons c t => rfl

/-- The byte length of the empty text. -/
theorem byteLen_nil : byteLen ([] : List Char) = 0 := by
  simp [byteLen]

/-- Every character occupies at least one byte. -/
theorem utf8Len_pos (c : Char) : 1 ≤ utf8Len c := by
  unfold utf8Len
  split
  · exact le_refl 1
  · split
    · omega
    · split
      · omega
      · omega

/-- Byte length distributes over append. -/
theorem byteLen_append (l1 l2 : List Char) :
    byteLen (l1 ++ l2) = byteLen l1 + byteLen l2 := by
  unfold byteLen
  rw [List.map_append, List.sum_append]

/-- Byte length of a cons. -/
theorem byteLen_cons (c : Char) (t : List Char) :
    byteLen (c :: t) = utf8Len c + byteLen t := by
  unfold byteLen
  rw [List.map_cons, List.sum_cons]

/-- Dropping exactly the bytes of a prefix succeeds and yields the rest. -/
theorem dropBytes_append (l1 l2 : List Char) :
    dropBytes (l1 ++ l2) (byteLen l1) = some l2 := by
  induction l1 with
  | nil =>
    rw [List.nil_append, byteLen_nil]
    exact dropBytes_zero l2
  | cons c t ih =>
    have hpos := utf8Len_pos c
    obtain ⟨m, hm⟩ : ∃ m, byteLen (c :: t) = m + 1 :=
      ⟨byteLen (c :: t) - 1, by rw [byteLen_cons]; omega⟩
    rw [List.cons_append, hm, dropBytes_cons]
    rw [byteLen_cons] at hm
    rw [if_pos (by omega)]
    have hrest : m + 1 - utf8Len c = byteLen t := by omega
    rw [hrest]
    exact ih

/-- Taking exactly the bytes of a prefix succeeds and yields the prefix. -/
theorem takeBytes_append (r l2 : List Char) :
    takeBytes (r ++ l2) (byteLen r) = some r := by
  induction r with
  | nil =>
    rw [List.nil_append, byteLen_nil]
    exact takeBytes_zero l2
  | cons c t ih =>
    have hpos := utf8Len_pos c
    obtain ⟨m, hm⟩ : ∃ m, byteLen (c :: t) = m + 1 :=
      ⟨byteLen (c :: t) - 1, by rw [byteLen_cons]; omega⟩
    rw [List.cons_append, hm, takeBytes_cons]
    rw [byteLen_cons] at hm
    rw [if_pos (by omega)]
    have hrest : m + 1 - utf8Len c = byteLen t := by omega
    rw [hrest, ih]
    rfl

/-- A successful dropBytes splits the text at a character boundary of the
requested byte offset. -/
theorem dropBytes_sound :
    ∀ (l : List Char) (n : Nat) (r : List Char),
    dropBytes l n = some r → ∃ l1, l = l1 ++ r ∧ byteLen l1 = n := by
  intro l
  induction l with
  | nil =>
    intro n r h
    cases n with
    | zero =>
      rw [dropBytes_zero] at h
      have hr : r = [] := (Option.some.inj h).symm
      exact ⟨[], by rw [hr]; rfl, byteLen_nil⟩
    | succ m => exact Option.noConfusion h
  | cons c t ih =>
    intro n r h
    cases n with
    | zero =>
      rw [dropBytes_zero] at h
      have hr : c :: t = r := Option.some.inj h
      exact ⟨[], by rw [← hr]; rfl, byteLen_nil⟩
    | succ m =>
      rw [dropBytes_cons] at h
      by_cases hc : utf8Len c ≤ m + 1
      · rw [if_pos hc] at h
        obtain ⟨l1, hl, hb⟩ := ih _ _ h
        refine ⟨c :: l1, by rw [List.cons_append, ← hl], ?_⟩
        rw [byteLen_cons]
        omega
      · rw [if_neg hc] at h
        exact Option.noConfusion h

/-- A successful takeBytes returns a prefix occupying exactly the
requested bytes. -/
theorem takeBytes_sound :
    ∀ (l : List Char) (n : Nat) (r : List Char),
    takeBytes l n = some r → byteLen r = n ∧ ∃ l2, l = r ++ l2 := by
  intro l
  induction l with
  | nil =>
    intro n r h
    cases n with
    | zero =>
      rw [takeBytes_zero] at h
      have hr : r = [] := (Option.some.inj h).symm
      exact ⟨by rw [hr]; exact byteLen_nil, [], by rw [hr]; rfl⟩
    | succ m => exact Option.noConfusion h
  | cons c t ih =>
    intro n r h
    cases n with
    | zero =>
      rw [takeBytes_zero] at h
      have hr : r = [] := (Option.some.inj h).symm
      exact ⟨by rw [hr]; exact byteLen_nil, c :: t, by rw [hr]; rfl⟩
    | succ m =>
      rw [takeBytes_cons] at h
      by_cases hc : utf8Len c ≤ m + 1
      · rw [if_pos hc] at h
        obtain ⟨r', hr', hrc⟩ := Option.map_eq_some'.mp h
        obtain ⟨hb, l2, hl2⟩ := ih _ _ hr'
        refine ⟨?_, l2, ?_⟩
        · rw [← hrc, byteLen_cons]
          omega
        · rw [← hrc, List.cons_append, ← hl2]
      · rw [if_neg hc] at h
        exact Option.noConfusion h

/-- Claim C7, counterexample: the snippet operation is not total.  With
both byte offsets in range but start above end, the Rust slice
content[2..1] panics (modelled as none); and on the one-character text é,
two bytes wide, the in-range ordered request (1, 2) passes the guard but
byte offset 1 splits the character, so the slice panics as well.  In
neither case is the empty string or the text between the offsets
returned. -/
theorem get_snippet_counterexample :
    get_snippet ['a', 'b', 'c'] 2 1 = none ∧
    get_snippet ['é'] 1 2 = none := by
  constructor
  · decide
  · decide

/-- Claim C7, amended: get_snippet returns the empty string whenever
start is at least the byte length or end exceeds it; when the request is
in range and the offsets split the text at character boundaries with
start at most end, it returns exactly the text between the offsets; but
it is not total: an in-range request with end below start panics, and
every successful in-range request has ordered offsets lying on character
boundaries, so in-range requests violating that panic. -/
theorem get_snippet_total_except_invalid (content : List Char) (s e : Nat) :
    ((s ≥ byteLen content ∨ e > byteLen content) → get_snippet content s e = some []) ∧
    (∀ l1 mid l2, content = l1 ++ mid ++ l2 → byteLen l1 = s →
      byteLen (l1 ++ mid) = e → s < byteLen content → e ≤ byteLen content →
      get_snippet content s e = some mid) ∧
    (s < byteLen content → e ≤ byteLen content → e < s →
      get_snippet content s e = none) ∧
    (∀ r, get_snippet content s e = some r →
      ¬(s ≥ byteLen content ∨ e > byteLen content) →
      s ≤ e ∧ IsBoundary content s ∧ IsBoundary content e) := by
  refine ⟨?_, ?_, ?_, ?_⟩
  · intro h
    unfold get_snippet
    rw [if_pos h]
  · intro l1 mid l2 hsplit hs he h1 h2
    have hse : s ≤ e := by
      rw [byteLen_append] at he
      omega
    unfold get_snippet
    rw [if_neg (by omega)]
    unfold sliceBytes
    rw [if_pos hse]
    have hdrop : dropBytes content s = some (mid ++ l2) := by
      rw [hsplit, List.append_assoc, ← hs]
      exact dropBytes_append l1 (mid ++ l2)
    rw [hdrop]
    show takeBytes (mid ++ l2) (e - s) = some mid
    have hmid : e - s = byteLen mid := by
      rw [byteLen_append] at he
      omega
    rw [hmid]
    exact takeBytes_append mid l2
  · intro h1 h2 h3
    unfold get_snippet
    rw [if_neg (by omega)]
    unfold sliceBytes
    rw [if_neg (by omega)]
  · intro r h hnot
    unfold get_snippet at h
    rw [if_neg hnot] at h
    unfold sliceBytes at h
    by_cases hse : s ≤ e
    · rw [if_pos hse] at h
      cases hd : dropBytes content s with
      | none =>
        rw [hd] at h
        exact Option.noConfusion h
      | some rest =>
        rw [hd] at h
        obtain ⟨l1, hl1, hb1⟩ := dropBytes_sound content s rest hd
        obtain ⟨hbr, l2, hl2⟩ := takeBytes_sound rest (e - s) r h
        refine ⟨hse, ⟨l1, rest, hl1, hb1⟩, ⟨l1 ++ r, l2, ?_, ?_⟩⟩
        · rw [List.append_assoc, ← hl2, hl1]
        · rw [byteLen_append]
          omega
    · rw [if_neg hse] at h
      exact Option.noConfusion h

/-- Claim C7, witness: the amended theorem instantiated at the valid
one-character slice (1, 2) of the three-byte text abc and at an
out-of-range request on the same text. -/
theorem get_snippet_total_except_invalid_witness :
    get_snippet ['a', 'b', 'c'] 1 2 = some ['b'] ∧
    get_snippet ['a', 'b', 'c'] 5 7 = some [] := by
  constructor
  · exact (get_snippet_total_except_invalid ['a', 'b', 'c'] 1 2).2.1 ['a'] ['b'] ['c']
      rfl (by decide) (by decide) (by decide) (by decide)
  · exact (get_snippet_total_except_invalid ['a', 'b', 'c'] 5 7).1 (Or.inl (by decide))

/-! ## Claim C1 -/

/-- Once the walk accumulator is an error, every later entry is ignored
and the error is returned unchanged. -/
theorem foldl_analyzeStep_error (l : List WalkEntry) (msg : String) :
    l.foldl analyzeStep (.error msg) = .error msg := by
  induction l with
  | nil => rfl
  | cons e l ih =>
    rw [List.foldl_cons, show analyzeStep (.error msg) e = .error msg from rfl, ih]

/-- A walk over entries that all pass keeps the accumulator in the ok
state. -/
theorem foldl_analyzeStep_ok (l : List WalkEntry) :
    ∀ is0 : List Issue, (∀ e ∈ l, entryOk e = true) →
    ∃ is, l.foldl analyzeStep (.ok is0) = .ok is := by
  induction l with
  | nil => intro is0 _; exact ⟨is0, rfl⟩
  | cons e l ih =>
    intro is0 h
    have he := h e (by simp)
    cases e with
    | err m => simp [entryOk] at he
    | found f =>
      by_cases hsel : (f.is_file && f.is_go && !f.excluded) = true
      · have hok : f.analysis.isOk = true := by simpa [entryOk, hsel] using he
        cases ha : f.analysis with
        | error m => rw [ha] at hok; simp [Except.isOk, Except.toBool] at hok
        | ok nis =>
          have hstep : analyzeStep (.ok is0) (.found f) = .ok (is0 ++ nis) := by
            simp [analyzeStep, hsel, ha]
          rw [List.foldl_cons, hstep]
          exact ih _ (fun x hx => h x (by simp [hx]))
      · have hstep : analyzeStep (.ok is0) (.found f) = .ok is0 := by
          simp [analyzeStep, hsel]
        rw [List.foldl_cons, hstep]
        exact ih _ (fun x hx => h x (by simp [hx]))

/-- Claim C1, counterexample: a directory walk discovering a failing Go
file followed by a Go file carrying a finding.  run_analysis returns the
first file's error: the second file's finding is not returned (no finding
list is returned at all), so one bad file does abort the whole walk. -/
theorem run_analysis_counterexample :
    run_analysis ⟨true, false, false, .ok [],
      [.found ⟨true, true, false, .error "parse error"⟩,
       .found ⟨true, true, false, .ok [⟨"b.go", 1, 1, .Style, .Warning,
         "Line too long (130 > 120 characters)", "", false⟩]⟩]⟩ =
      .error "parse error" ∧
    ∀ is : List Issue,
      run_analysis ⟨true, false, false, .ok [],
        [.found ⟨true, true, false, .error "parse error"⟩,
         .found ⟨true, true, false, .ok [⟨"b.go", 1, 1, .Style, .Warning,
           "Line too long (130 > 120 characters)", "", false⟩]⟩]⟩ ≠
        .ok is := by
  constructor
  · rfl
  · intro is h
    have h1 : Except.error (ε := String) "parse error" = Except.ok is := by
      rw [← h]
      rfl
    exact Except.noConfusion h1

/-- Claim C1, amended: a parse or I/O failure while analyzing one
discovered file aborts run_analysis through the question-mark operator:
the run returns exactly that file's error, so neither the findings of
files analyzed before it nor those of files after it are returned. -/
theorem run_analysis_aborts_on_first_failure (m : RootModel) (pre post : List WalkEntry)
    (f : FileEntry) (msg : String)
    (hroot : m.root_exists = true) (hdir : m.root_is_file = false)
    (hwalk : m.walk = pre ++ WalkEntry.found f :: post)
    (hpre : ∀ e ∈ pre, entryOk e = true)
    (hsel : (f.is_file && f.is_go && !f.excluded) = true)
    (hfail : f.analysis = .error msg) :
    run_analysis m = .error msg := by
  unfold run_analysis
  rw [hroot, hdir, hwalk]
  simp only [Bool.not_true, Bool.false_eq_true, if_false]
  rw [List.foldl_append]
  obtain ⟨is, his⟩ := foldl_analyzeStep_ok pre [] hpre
  rw [his, List.foldl_cons]
  have hstep : analyzeStep (.ok is) (.found f) = .error msg := by
    simp [analyzeStep, hsel, hfail]
  rw [hstep, foldl_analyzeStep_error]

/-- Claim C1, witness: the amended theorem applied to a concrete
directory whose first discovered file fails with an I/O error while a
second, healthy file follows it. -/
theorem run_analysis_aborts_on_first_failure_witness :
    run_analysis ⟨true, false, false, .ok [],
      [.found ⟨true, true, false, .error "Failed to read file"⟩,
       .found ⟨true, true, false, .ok []⟩]⟩ = .error "Failed to read file" :=
  run_analysis_aborts_on_first_failure _ []
    [.found ⟨true, true, false, .ok []⟩]
    ⟨true, true, false, .error "Failed to read file"⟩
    "Failed to read file" rfl rfl rfl (by intro e he; cases he) (by decide) rfl

/-! ## Claim C2 -/

/-- Claim C2, counterexample: a single fixable finding whose file cannot
be read.  The claim requires apply_fixes to fail with an I/O error;
instead the read failure is only reported on stderr, the finding is
skipped, and apply_fixes returns Ok 0. -/
theorem apply_fixes_ioerror_counterexample :
    ((⟨fun _ => none, fun _ c => (true, c), fun _ c => (true, c), fun _ c => (true, c),
        fun _ _ => true⟩ : FixEnv).readFile "f.go" = none) ∧
    (apply_fixes
      ⟨fun _ => none, fun _ c => (true, c), fun _ c => (true, c), fun _ c => (true, c),
        fun _ _ => true⟩
      [⟨"f.go", 1, 1, .DeadCode, .Warning, "Unused import: \"fmt\"", "\"fmt\"",
        true⟩]).result = .ok 0 :=
  ⟨rfl, rfl⟩

/-- Claim C2, amended: apply_fixes never returns an error for any outcome
of the reads, fix attempts and writes: a file that cannot be read has its
findings skipped, a failing individual fix is only logged, and a failing
write only lowers the returned count; the function always returns Ok. -/
theorem apply_fixes_never_errors (env : FixEnv) (issues : List Issue) :
    ∃ n : Nat, (apply_fixes env issues).result = .ok n :=
  ⟨_, rfl⟩

/-! ## Helper lemmas about the three loops of apply_fixes -/

/-- A non-fixable issue leaves the fix loop accumulator unchanged. -/
theorem fixStep_skip (env : FixEnv) (acc : FileMap × Nat) (i : Issue)
    (h : i.fix_available = false) : fixStep env acc i = acc := by
  unfold fixStep
  rw [if_pos (by rw [h]; rfl)]

/-- One fix-loop step increments the count by at most one. -/
theorem fixStep_count_le (env : FixEnv) (acc : FileMap × Nat) (i : Issue) :
    (fixStep env acc i).2 ≤ acc.2 + 1 := by
  unfold fixStep
  split
  · omega
  · split
    · omega
    · dsimp only
      split
      · omega
      · omega

/-- The fix loop counts at most one success per fixable issue. -/
theorem fixFold_count_le (env : FixEnv) :
    ∀ (issues : List Issue) (acc : FileMap × Nat),
    (issues.foldl (fixStep env) acc).2 ≤
      acc.2 + (issues.filter (fun i => i.fix_available)).length := by
  intro issues
  induction issues with
  | nil => intro acc; simp
  | cons i l ih =>
    intro acc
    rw [List.foldl_cons]
    have h1 := ih (fixStep env acc i)
    have h2 : (fixStep env acc i).2 ≤ acc.2 + (if i.fix_available then 1 else 0) := by
      by_cases hf : i.fix_available = true
      · have h3 := fixStep_count_le env acc i
        rw [if_pos hf]
        omega
      · rw [fixStep_skip env acc i (by simpa using hf), if_neg hf]
        omega
    have h3 : ((i :: l).filter (fun i => i.fix_available)).length =
        (if i.fix_available then 1 else 0) +
          (l.filter (fun i => i.fix_available)).length := by
      rw [List.filter_cons]
      by_cases hf : i.fix_available = true
      · simp only [hf, if_pos, List.length_cons]
        omega
      · simp [hf]
    omega

/-- One write-loop step never increases the count. -/
theorem writeStep_count_le (env : FixEnv) (issues : List Issue)
    (acc : Nat × List (String × String)) (e : String × String) :
    (writeStep env issues acc e).1 ≤ acc.1 := by
  unfold writeStep
  split
  · exact le_refl _
  · dsimp only
    split
    · omega
    · exact le_refl _

/-- The write loop never increases the count. -/
theorem writeFold_count_le (env : FixEnv) (issues : List Issue) :
    ∀ (m : FileMap) (acc : Nat × List (String × String)),
    (m.foldl (writeStep env issues) acc).1 ≤ acc.1 := by
  intro m
  induction m with
  | nil => intro acc; exact le_refl _
  | cons e l ih =>
    intro acc
    rw [List.foldl_cons]
    exact le_trans (ih _) (writeStep_count_le env issues acc e)

/-- Every path read by the read loop is the path of some fixable issue of
the input (or was already in the incoming log). -/
theorem readFold_reads_subset (env : FixEnv) :
    ∀ (issues : List Issue) (acc : FileMap × List String) (p : String),
    p ∈ (issues.foldl (readStep env) acc).2 →
    p ∈ acc.2 ∨ ∃ i ∈ issues, i.file_path = p := by
  intro issues
  induction issues with
  | nil => intro acc p h; exact Or.inl h
  | cons i l ih =>
    intro acc p h
    rw [List.foldl_cons] at h
    rcases ih (readStep env acc i) p h with h1 | ⟨j, hj, hjp⟩
    · have h2 : p ∈ acc.2 ∨ i.file_path = p := by
        unfold readStep at h1
        split at h1
        · exact Or.inl h1
        · split at h1
          · exact Or.inl h1
          · split at h1
            · rcases List.mem_append.mp h1 with h3 | h3
              · exact Or.inl h3
              · have h4 : p = i.file_path := by simpa using h3
                exact Or.inr h4.symm
            · rcases List.mem_append.mp h1 with h3 | h3
              · exact Or.inl h3
              · have h4 : p = i.file_path := by simpa using h3
                exact Or.inr h4.symm
      rcases h2 with h3 | h3
      · exact Or.inl h3
      · exact Or.inr ⟨i, by simp, h3⟩
    · exact Or.inr ⟨j, by simp [hj], hjp⟩

/-- Every entry of the map built by the read loop stems from some issue
of the input (or was already in the incoming map). -/
theorem readFold_keys_subset (env : FixEnv) :
    ∀ (issues : List Issue) (acc : FileMap × List String) (en : String × String),
    en ∈ (issues.foldl (readStep env) acc).1 →
    en ∈ acc.1 ∨ ∃ i ∈ issues, i.file_path = en.1 := by
  intro issues
  induction issues with
  | nil => intro acc en h; exact Or.inl h
  | cons i l ih =>
    intro acc en h
    rw [List.foldl_cons] at h
    rcases ih (readStep env acc i) en h with h1 | ⟨j, hj, hjp⟩
    · have h2 : en ∈ acc.1 ∨ i.file_path = en.1 := by
        unfold readStep at h1
        split at h1
        · exact Or.inl h1
        · split at h1
          · exact Or.inl h1
          · split at h1
            · rcases List.mem_append.mp h1 with h3 | h3
              · exact Or.inl h3
              · have h4 := List.mem_singleton.mp h3
                exact Or.inr (by rw [h4])
            · exact Or.inl h1
      rcases h2 with h3 | h3
      · exact Or.inl h3
      · exact Or.inr ⟨i, by simp, h3⟩
    · exact Or.inr ⟨j, by simp [hj], hjp⟩

/-- Replacing a value in the map keeps the key list. -/
theorem fmSet_keys (m : FileMap) (k v : String) :
    (fmSet m k v).map Prod.fst = m.map Prod.fst := by
  unfold fmSet
  rw [List.map_map]
  apply List.map_congr_left
  intro p _
  dsimp only [Function.comp]
  split
  · next hkp =>
    have hk : p.1 = k := by simpa using hkp
    exact hk.symm
  · rfl

/-- One fix-loop step keeps the key list of the map. -/
theorem fixStep_keys (env : FixEnv) (acc : FileMap × Nat) (i : Issue) :
    ((fixStep env acc i).1).map Prod.fst = acc.1.map Prod.fst := by
  unfold fixStep
  split
  · rfl
  · split
    · rfl
    · dsimp only
      exact fmSet_keys _ _ _

/-- The fix loop keeps the key list of the map. -/
theorem fixFold_keys (env : FixEnv) :
    ∀ (issues : List Issue) (acc : FileMap × Nat),
    ((issues.foldl (fixStep env) acc).1).map Prod.fst = acc.1.map Prod.fst := by
  intro issues
  induction issues with
  | nil => intro acc; rfl
  | cons i l ih =>
    intro acc
    rw [List.foldl_cons, ih (fixStep env acc i), fixStep_keys]

/-- The write loop attempts exactly one write per map entry, in order. -/
theorem writeFold_writes (env : FixEnv) (issues : List Issue) :
    ∀ (m : FileMap) (acc : Nat × List (String × String)),
    (m.foldl (writeStep env issues) acc).2 = acc.2 ++ m := by
  intro m
  induction m with
  | nil => intro acc; simp
  | cons e l ih =>
    intro acc
    rw [List.foldl_cons]
    have hstep : (writeStep env issues acc e).2 = acc.2 ++ [e] := by
      unfold writeStep
      split
      · rfl
      · rfl
    rw [ih _, hstep]
    simp

/-- A fold of write effects over files other than f leaves f's disk
content unchanged. -/
theorem diskFold_frame (env : FixEnv) (f : String) :
    ∀ (ws : List (String × String)) (d : String → String),
    (∀ e ∈ ws, e.1 ≠ f) → ws.foldl (diskStep env) d f = d f := by
  intro ws
  induction ws with
  | nil => intro d _; rfl
  | cons e l ih =>
    intro d h
    rw [List.foldl_cons, ih _ (fun x hx => h x (by simp [hx]))]
    unfold diskStep
    split
    · dsimp only
      rw [if_neg (by simp only [beq_iff_eq]; exact fun hh => (h e (by simp)) hh.symm)]
    · rfl

/-! ## Claim C9 -/

/-- Claim C9: the count returned by apply_fixes never exceeds the number
of findings with fix_available set, for every outcome of the per-file
reads, fix attempts and writes; it is a natural number, hence never
negative, and the guarded write-failure subtraction never underflows. -/
theorem apply_fixes_count_bounds (env : FixEnv) (issues : List Issue) (n : Nat)
    (h : (apply_fixes env issues).result = .ok n) :
    n ≤ (issues.filter (fun i => i.fix_available)).length := by
  have h' : Except.ok (ε := String)
      (writePhase env issues (fixPhase env issues (readPhase env issues).1).1
        (fixPhase env issues (readPhase env issues).1).2).1 = .ok n := h
  have hn := Except.ok.inj h'
  have h1 := writeFold_count_le env issues
    (fixPhase env issues (readPhase env issues).1).1
    ((fixPhase env issues (readPhase env issues).1).2, [])
  have h2 := fixFold_count_le env issues ((readPhase env issues).1, 0)
  rw [← hn]
  unfold writePhase
  unfold fixPhase at h1 h2 ⊢
  omega

/-- Claim C9, witness: one fixable finding, everything succeeding, gives
count one, bounded by the one fixable finding. -/
theorem apply_fixes_count_bounds_witness :
    1 ≤ (([⟨"f.go", 1, 1, .DeadCode, .Warning, "Unused import: \"os\"", "\"os\"",
      true⟩] : List Issue).filter (fun i => i.fix_available)).length :=
  apply_fixes_count_bounds
    ⟨fun _ => some "package main", fun _ c => (true, c), fun _ c => (true, c),
      fun _ c => (true, c), fun _ _ => true⟩
    [⟨"f.go", 1, 1, .DeadCode, .Warning, "Unused import: \"os\"", "\"os\"", true⟩]
    1 rfl

/-! ## Claim C8 -/

/-- Claim C8: a file that appears in no finding passed to apply_fixes is
neither read nor written by it, and its on-disk content is unchanged
after the run. -/
theorem apply_fixes_frame (env : FixEnv) (issues : List Issue) (f : String)
    (disk : String → String) (h : ∀ i ∈ issues, i.file_path ≠ f) :
    f ∉ (apply_fixes env issues).reads ∧
    (∀ e ∈ (apply_fixes env issues).writes, e.1 ≠ f) ∧
    diskAfter env issues disk f = disk f := by
  have hreads : f ∉ (readPhase env issues).2 := by
    intro hf
    rcases readFold_reads_subset env issues ([], []) f hf with h1 | ⟨i, hi, hip⟩
    · cases h1
    · exact h i hi hip
  have hw : (apply_fixes env issues).writes =
      (fixPhase env issues (readPhase env issues).1).1 := by
    show (writePhase env issues _ _).2 = _
    unfold writePhase
    rw [writeFold_writes]
    simp
  have hwkeys : ∀ e ∈ (apply_fixes env issues).writes, e.1 ≠ f := by
    intro e he
    rw [hw] at he
    have he1 : e.1 ∈ ((readPhase env issues).1).map Prod.fst := by
      rw [← fixFold_keys env issues ((readPhase env issues).1, 0)]
      exact List.mem_map_of_mem _ he
    obtain ⟨en, hen, heq⟩ := List.mem_map.mp he1
    rcases readFold_keys_subset env issues ([], []) en hen with h1 | ⟨i, hi, hip⟩
    · cases h1
    · intro hef
      exact h i hi (by rw [hip, heq, hef])
  refine ⟨hreads, hwkeys, ?_⟩
  unfold diskAfter
  exact diskFold_frame env f _ disk hwkeys

/-- Claim C8, witness: a run whose only finding touches a.go leaves
b.go unread, unwritten and byte-identical on disk. -/
theorem apply_fixes_frame_witness :
    "b.go" ∉ (apply_fixes
      ⟨fun _ => some "package main", fun _ c => (true, c), fun _ c => (true, c),
        fun _ c => (true, c), fun _ _ => true⟩
      [⟨"a.go", 1, 1, .Style, .Warning, "Use tabs for indentation in Go, not spaces",
        "", true⟩]).reads ∧
    (∀ e ∈ (apply_fixes
      ⟨fun _ => some "package main", fun _ c => (true, c), fun _ c => (true, c),
        fun _ c => (true, c), fun _ _ => true⟩
      [⟨"a.go", 1, 1, .Style, .Warning, "Use tabs for indentation in Go, not spaces",
        "", true⟩]).writes, e.1 ≠ "b.go") ∧
    diskAfter
      ⟨fun _ => some "package main", fun _ c => (true, c), fun _ c => (true, c),
        fun _ c => (true, c), fun _ _ => true⟩
      [⟨"a.go", 1, 1, .Style, .Warning, "Use tabs for indentation in Go, not spaces",
        "", true⟩] (fun _ => "source text") "b.go" =
      (fun _ => "source text" : String → String) "b.go" :=
  apply_fixes_frame _ _ "b.go" (fun _ => "source text") (by
    intro i hi
    have : i = ⟨"a.go", 1, 1, .Style, .Warning,
        "Use tabs for indentation in Go, not spaces", "", true⟩ := by simpa using hi
    rw [this]
    decide)

/-! ## Claim C3 -/

/-- A key that fmContains reports absent heads no pair of the map. -/
theorem fmContains_false_not_mem (m : FileMap) (k : String)
    (h : fmContains m k = false) : k ∉ m.map Prod.fst := by
  intro hk
  obtain ⟨p, hp, hpk⟩ := List.mem_map.mp hk
  unfold fmContains at h
  rw [List.any_eq_false] at h
  exact absurd (by simpa using hpk) (h p hp)

/-- fmContains finds a key just appended. -/
theorem fmContains_append (m : FileMap) (k c : String) :
    fmContains (m ++ [(k, c)]) k = true := by
  unfold fmContains
  rw [List.any_eq_true]
  exact ⟨(k, c), by simp, by simp⟩

/-- A non-fixable issue leaves the read loop accumulator unchanged. -/
theorem readStep_skip (env : FixEnv) (acc : FileMap × List String) (i : Issue)
    (h : i.fix_available = false) : readStep env acc i = acc := by
  unfold readStep
  rw [if_pos (by rw [h]; rfl)]

/-- The read loop preserves distinctness of the map keys: a file is
inserted only when it is not in the map yet. -/
theorem readFold_keys_nodup (env : FixEnv) :
    ∀ (issues : List Issue) (acc : FileMap × List String),
    (acc.1.map Prod.fst).Nodup →
    (((issues.foldl (readStep env) acc).1).map Prod.fst).Nodup := by
  intro issues
  induction issues with
  | nil => intro acc h; exact h
  | cons i l ih =>
    intro acc h
    rw [List.foldl_cons]
    apply ih
    unfold readStep
    by_cases hf : (!i.fix_available) = true
    · rw [if_pos hf]
      exact h
    · rw [if_neg hf]
      by_cases hc : fmContains acc.1 i.file_path = true
      · rw [if_pos hc]
        exact h
      · rw [if_neg hc]
        cases hr : env.readFile i.file_path with
        | none => exact h
        | some content =>
          dsimp only
          rw [List.map_append, List.nodup_append]
          refine ⟨h, by simp, ?_⟩
          intro x hx hx2
          have hxf : x = i.file_path := by simpa using hx2
          rw [hxf] at hx
          exact fmContains_false_not_mem acc.1 i.file_path (by simpa using hc) hx

/-- When all fixable issues concern one file already present in the map,
the read loop does nothing at all. -/
theorem readFold_const_contains (env : FixEnv) (f : String) :
    ∀ (issues : List Issue) (acc : FileMap × List String),
    (∀ i ∈ issues, i.fix_available = true → i.file_path = f) →
    fmContains acc.1 f = true →
    issues.foldl (readStep env) acc = acc := by
  intro issues
  induction issues with
  | nil => intro acc _ _; rfl
  | cons i l ih =>
    intro acc h hc
    rw [List.foldl_cons]
    have hstep : readStep env acc i = acc := by
      by_cases hf : i.fix_available = true
      · have hp := h i (by simp) hf
        unfold readStep
        rw [if_neg (by rw [hf]; simp), hp, if_pos hc]
      · exact readStep_skip env acc i (by simpa using hf)
    rw [hstep]
    exact ih acc (fun j hj => h j (by simp [hj])) hc

/-- When all fixable issues concern the single readable file f and f is
not in the map yet, the read loop either does nothing (no issue was
fixable) or inserts exactly the one entry for f. -/
theorem readFold_const_file (env : FixEnv) (f c0 : String) :
    ∀ (issues : List Issue) (acc : FileMap × List String),
    (∀ i ∈ issues, i.fix_available = true → i.file_path = f) →
    fmContains acc.1 f = false →
    env.readFile f = some c0 →
    ((issues.foldl (readStep env) acc).1 = acc.1 ∧
      ∀ i ∈ issues, i.fix_available = false) ∨
    (issues.foldl (readStep env) acc).1 = acc.1 ++ [(f, c0)] := by
  intro issues
  induction issues with
  | nil => intro acc _ _ _; exact Or.inl ⟨rfl, by intro i hi; cases hi⟩
  | cons i l ih =>
    intro acc h hc hr
    rw [List.foldl_cons]
    by_cases hf : i.fix_available = true
    · have hp := h i (by simp) hf
      have hstep : readStep env acc i = (acc.1 ++ [(f, c0)], acc.2 ++ [f]) := by
        unfold readStep
        rw [if_neg (by rw [hf]; simp), hp, if_neg (by rw [hc]; simp), hr]
      rw [hstep]
      have hrest := readFold_const_contains env f l (acc.1 ++ [(f, c0)], acc.2 ++ [f])
        (fun j hj => h j (by simp [hj])) (by exact fmContains_append acc.1 f c0)
      rw [hrest]
      exact Or.inr rfl
    · rw [readStep_skip env acc i (by simpa using hf)]
      rcases ih acc (fun j hj => h j (by simp [hj])) hc hr with ⟨h1, h2⟩ | h1
      · refine Or.inl ⟨h1, ?_⟩
        intro j hj
        rcases List.mem_cons.mp hj with rfl | hj2
        · simpa using hf
        · exact h2 j hj2
      · exact Or.inr h1

/-- The fix loop does nothing on an empty map. -/
theorem fixFold_empty_map (env : FixEnv) :
    ∀ (issues : List Issue) (c : Nat),
    issues.foldl (fixStep env) ([], c) = ([], c) := by
  intro issues
  induction issues with
  | nil => intro c; rfl
  | cons i l ih =>
    intro c
    rw [List.foldl_cons]
    have hstep : fixStep env ([], c) i = ([], c) := by
      unfold fixStep
      split
      · rfl
      · rfl
    rw [hstep]
    exact ih c

/-- A map whose key list is the one key is the one singleton. -/
theorem singleton_of_keys {α : Type} (m : List (String × α)) (k : String)
    (h : m.map Prod.fst = [k]) : ∃ v, m = [(k, v)] := by
  cases m with
  | nil => cases h
  | cons p t =>
    cases t with
    | nil =>
      have h1 : p.1 = k := by simpa using h
      exact ⟨p.2, by rw [← h1]⟩
    | cons q t2 => simp at h

/-- The attempted writes of apply_fixes are exactly the entries of the
post-fix in-memory map, in map order. -/
theorem apply_fixes_writes_eq (env : FixEnv) (issues : List Issue) :
    (apply_fixes env issues).writes =
      (fixPhase env issues (readPhase env issues).1).1 := by
  show (writePhase env issues _ _).2 = _
  unfold writePhase
  rw [writeFold_writes]
  simp

/-- Claim C3, counterexample: one file with two fixable DeadCode findings
of which the fixer resolves exactly the first, and a failing write.  One
fix was successfully applied and it belongs to the failing file, so the
claim demands the returned count 1 - 1 = 0; the code instead subtracts
the number of fixable findings of the file (2) guarded by 2 <= 1, which
fails, and returns 1. -/
theorem apply_fixes_subtraction_counterexample :
    (apply_fixes
      ⟨fun _ => some "", fun _ c => (true, c), fun i c => (i.line == 1, c),
        fun _ c => (true, c), fun _ _ => false⟩
      [⟨"f.go", 1, 1, .DeadCode, .Warning, "Unused import: \"os\"", "\"os\"", true⟩,
       ⟨"f.go", 2, 1, .DeadCode, .Warning, "Unused import: \"io\"", "\"io\"", true⟩]).result
      = .ok 1 ∧
    (fixPhase
      ⟨fun _ => some "", fun _ c => (true, c), fun i c => (i.line == 1, c),
        fun _ c => (true, c), fun _ _ => false⟩
      [⟨"f.go", 1, 1, .DeadCode, .Warning, "Unused import: \"os\"", "\"os\"", true⟩,
       ⟨"f.go", 2, 1, .DeadCode, .Warning, "Unused import: \"io\"", "\"io\"", true⟩]
      (readPhase
        ⟨fun _ => some "", fun _ c => (true, c), fun i c => (i.line == 1, c),
          fun _ c => (true, c), fun _ _ => false⟩
        [⟨"f.go", 1, 1, .DeadCode, .Warning, "Unused import: \"os\"", "\"os\"", true⟩,
         ⟨"f.go", 2, 1, .DeadCode, .Warning, "Unused import: \"io\"", "\"io\"", true⟩]).1).2
      = 1 ∧
    (1 : Nat) - 1 ≠ 1 := by
  refine ⟨rfl, rfl, by decide⟩

/-- Claim C3, amended: every file is written at most once, after all its
fixes are attempted (the attempted writes are exactly the post-fix map,
whose keys are distinct); and when every fixable finding concerns one
readable file f whose write fails, the returned count is the applied
count diminished by the number of fixable findings of f, except that the
subtraction is skipped whenever that number exceeds the applied count. -/
theorem apply_fixes_write_once_and_guarded_subtraction :
    (∀ (env : FixEnv) (issues : List Issue),
      ((apply_fixes env issues).writes.map Prod.fst).Nodup ∧
      (apply_fixes env issues).writes =
        (fixPhase env issues (readPhase env issues).1).1) ∧
    (∀ (env : FixEnv) (issues : List Issue) (f c0 : String),
      (∀ i ∈ issues, i.fix_available = true → i.file_path = f) →
      env.readFile f = some c0 →
      (∀ c, env.writeOk f c = false) →
      (apply_fixes env issues).result =
        .ok (if (issues.filter (fun i => i.fix_available && i.file_path == f)).length ≤
              (fixPhase env issues (readPhase env issues).1).2
            then (fixPhase env issues (readPhase env issues).1).2 -
              (issues.filter (fun i => i.fix_available && i.file_path == f)).length
            else (fixPhase env issues (readPhase env issues).1).2)) := by
  constructor
  · intro env issues
    refine ⟨?_, apply_fixes_writes_eq env issues⟩
    rw [apply_fixes_writes_eq env issues]
    show ((issues.foldl (fixStep env) ((readPhase env issues).1, 0)).1.map Prod.fst).Nodup
    rw [fixFold_keys]
    exact readFold_keys_nodup env issues ([], []) (by simp)
  · intro env issues f c0 h1 h2 h3
    have hstart : fmContains ([] : FileMap) f = false := rfl
    rcases readFold_const_file env f c0 issues ([], []) h1 hstart h2 with ⟨hmap, hnofix⟩ | hmap
    · have hm : (readPhase env issues).1 = [] := hmap
      have hfix : fixPhase env issues (readPhase env issues).1 = ([], 0) := by
        unfold fixPhase
        rw [hm]
        exact fixFold_empty_map env issues 0
      have hn : (issues.filter (fun i => i.fix_available && i.file_path == f)).length = 0 := by
        rw [List.length_eq_zero, List.filter_eq_nil_iff]
        intro i hi
        rw [hnofix i hi]
        simp
      show Except.ok (writePhase env issues (fixPhase env issues (readPhase env issues).1).1
        (fixPhase env issues (readPhase env issues).1).2).1 = _
      rw [hfix, hn]
      show Except.ok ((([] : FileMap).foldl (writeStep env issues) (0, [])).1) = _
      simp
    · have hm : (readPhase env issues).1 = [(f, c0)] := hmap
      have hkeys : ((fixPhase env issues (readPhase env issues).1).1).map Prod.fst = [f] := by
        show ((issues.foldl (fixStep env) ((readPhase env issues).1, 0)).1.map Prod.fst) = [f]
        rw [fixFold_keys]
        rw [hm]
        rfl
      obtain ⟨z, hz⟩ := singleton_of_keys _ f hkeys
      show Except.ok (writePhase env issues (fixPhase env issues (readPhase env issues).1).1
        (fixPhase env issues (readPhase env issues).1).2).1 = _
      rw [hz]
      unfold writePhase
      rw [List.foldl_cons]
      have hws : writeStep env issues ((fixPhase env issues (readPhase env issues).1).2, [])
          (f, z) =
          (if (issues.filter (fun i => i.fix_available && i.file_path == f)).length ≤
              (fixPhase env issues (readPhase env issues).1).2
            then (fixPhase env issues (readPhase env issues).1).2 -
              (issues.filter (fun i => i.fix_available && i.file_path == f)).length
            else (fixPhase env issues (readPhase env issues).1).2, [(f, z)]) := by
        unfold writeStep
        rw [if_neg (by rw [h3 z]; simp)]
        rfl
      rw [hws]
      rfl

/-- Claim C3, witness: the amended theorem applied to a run with a single
fixable finding on one readable but unwritable file whose fix succeeds:
one success is counted, the write fails, and the guarded subtraction
returns zero; the attempted writes also carry distinct file names. -/
theorem apply_fixes_write_once_witness :
    (apply_fixes
      ⟨fun _ => some "package main", fun _ c => (true, c), fun _ c => (true, c),
        fun _ c => (true, c), fun _ _ => false⟩
      [⟨"f.go", 1, 1, .Style, .Warning, "missing space after control statement: if",
        "", true⟩]).result = .ok 0 ∧
    ((apply_fixes
      ⟨fun _ => some "package main", fun _ c => (true, c), fun _ c => (true, c),
        fun _ c => (true, c), fun _ _ => false⟩
      [⟨"f.go", 1, 1, .Style, .Warning, "missing space after control statement: if",
        "", true⟩]).writes.map Prod.fst).Nodup := by
  constructor
  · have h := apply_fixes_write_once_and_guarded_subtraction.2
      ⟨fun _ => some "package main", fun _ c => (true, c), fun _ c => (true, c),
        fun _ c => (true, c), fun _ _ => false⟩
      [⟨"f.go", 1, 1, .Style, .Warning, "missing space after control statement: if",
        "", true⟩]
      "f.go" "package main" (by decide) rfl (fun c => rfl)
    rw [h]
    rfl
  · exact (apply_fixes_write_once_and_guarded_subtraction.1
      ⟨fun _ => some "package main", fun _ c => (true, c), fun _ c => (true, c),
        fun _ c => (true, c), fun _ _ => false⟩
      [⟨"f.go", 1, 1, .Style, .Warning, "missing space after control statement: if",
        "", true⟩]).1

/-! ## Helper lemmas about the name-keyed maps of the dead-code checks -/

/-- filterMap with an if-none-else-some function is map after filter. -/
theorem filterMap_if {α β : Type} (q : α → Bool) (mk : α → β) :
    ∀ l : List α,
    l.filterMap (fun p => if q p then none else some (mk p)) =
      (l.filter (fun p => !q p)).map mk := by
  intro l
  induction l with
  | nil => rfl
  | cons a t ih =>
    rw [List.filterMap_cons, List.filter_cons]
    by_cases hq : q a = true
    · simp only [hq, if_pos, Bool.not_true, if_false]
      exact ih
    · simp only [Bool.not_eq_true] at hq
      simp only [hq, Bool.false_eq_true, if_false, Bool.not_false, if_true, List.map_cons]
      rw [ih]

/-- The key list after mapInsert: unchanged when the key was present,
extended by the key otherwise. -/
theorem mapInsert_keys {α : Type} (m : List (String × α)) (k : String) (v : α) :
    (mapInsert m k v).map Prod.fst =
      if m.any (fun p => p.1 == k) then m.map Prod.fst
      else m.map Prod.fst ++ [k] := by
  unfold mapInsert
  by_cases h : m.any (fun p => p.1 == k) = true
  · rw [if_pos h, if_pos h, List.map_map]
    apply List.map_congr_left
    intro p _
    dsimp only [Function.comp]
    split
    · next hpk =>
      have hp1 : p.1 = k := by simpa using hpk
      exact hp1.symm
    · rfl
  · rw [if_neg h, if_neg h, List.map_append]
    rfl

/-- mapInsert preserves distinctness of the key list. -/
theorem mapInsert_keys_nodup {α : Type} (m : List (String × α)) (k : String) (v : α)
    (h : (m.map Prod.fst).Nodup) : ((mapInsert m k v).map Prod.fst).Nodup := by
  rw [mapInsert_keys]
  by_cases hc : m.any (fun p => p.1 == k) = true
  · rw [if_pos hc]
    exact h
  · rw [if_neg hc]
    rw [List.nodup_append]
    refine ⟨h, by simp, ?_⟩
    intro x hx hx2
    have hxk : x = k := by simpa using hx2
    subst hxk
    rw [Bool.not_eq_true, List.any_eq_false] at hc
    obtain ⟨p, hp, hpk⟩ := List.mem_map.mp hx
    exact absurd (by simpa using hpk : (p.1 == x) = true) (by simpa using hc p hp)

/-- mapInsert preserves an entry predicate satisfied by the new entry. -/
theorem mapInsert_pred {α : Type} (P : String × α → Prop) (m : List (String × α))
    (k : String) (v : α) (hm : ∀ p ∈ m, P p) (hkv : P (k, v)) :
    ∀ p ∈ mapInsert m k v, P p := by
  intro p hp
  unfold mapInsert at hp
  by_cases hc : m.any (fun q => q.1 == k) = true
  · rw [if_pos hc] at hp
    obtain ⟨q, hq, hqe⟩ := List.mem_map.mp hp
    by_cases hqk : (q.1 == k) = true
    · rw [if_pos hqk] at hqe
      exact hqe ▸ hkv
    · rw [if_neg hqk] at hqe
      exact hqe ▸ hm q hq
  · rw [if_neg hc] at hp
    rcases List.mem_append.mp hp with h1 | h1
    · exact hm p h1
    · have h2 : p = (k, v) := by simpa using h1
      exact h2 ▸ hkv

/-- Every entry of the imports map is keyed by the last path segment of
its stored import path. -/
theorem buildImportsFold_pred :
    ∀ (specs : List ImportSpec) (m : List (String × ImportInfo)),
    (∀ p ∈ m, p.1 = extract_package_name p.2.import_path) →
    ∀ p ∈ specs.foldl importStep m, p.1 = extract_package_name p.2.import_path := by
  intro specs
  induction specs with
  | nil => intro m hm; exact hm
  | cons s t ih =>
    intro m hm
    rw [List.foldl_cons]
    apply ih
    unfold importStep
    split
    · exact hm
    · split
      · exact hm
      · exact mapInsert_pred _ m _ _ hm rfl

/-- The imports map has distinct keys. -/
theorem buildImportsFold_nodup :
    ∀ (specs : List ImportSpec) (m : List (String × ImportInfo)),
    ((m.map Prod.fst).Nodup) →
    (((specs.foldl importStep m).map Prod.fst)).Nodup := by
  intro specs
  induction specs with
  | nil => intro m hm; exact hm
  | cons s t ih =>
    intro m hm
    rw [List.foldl_cons]
    apply ih
    unfold importStep
    split
    · exact hm
    · split
      · exact hm
      · exact mapInsert_keys_nodup m _ _ hm

/-- Every entry of the functions map avoids the excluded names: not main,
not init, not uppercase-initial. -/
theorem buildFunctionsFold_pred :
    ∀ (decls : List FuncDecl) (m : List (String × (Nat × Nat))),
    (∀ p ∈ m, p.1 ≠ "main" ∧ p.1 ≠ "init" ∧ firstCharUpper p.1 = false) →
    ∀ p ∈ decls.foldl functionStep m,
      p.1 ≠ "main" ∧ p.1 ≠ "init" ∧ firstCharUpper p.1 = false := by
  intro decls
  induction decls with
  | nil => intro m hm; exact hm
  | cons d t ih =>
    intro m hm
    rw [List.foldl_cons]
    apply ih
    unfold functionStep
    by_cases h1 : (d.name == "main") = true
    · rw [if_pos h1]
      exact hm
    · rw [if_neg h1]
      by_cases h2 : (d.name == "init") = true
      · rw [if_pos h2]
        exact hm
      · rw [if_neg h2]
        by_cases h3 : firstCharUpper d.name = true
        · rw [if_pos h3]
          exact hm
        · rw [if_neg h3]
          refine mapInsert_pred _ m _ _ hm ⟨?_, ?_, ?_⟩
          · simpa using h1
          · simpa using h2
          · simpa using h3

/-- The functions map has distinct keys. -/
theorem buildFunctionsFold_nodup :
    ∀ (decls : List FuncDecl) (m : List (String × (Nat × Nat))),
    ((m.map Prod.fst).Nodup) →
    (((decls.foldl functionStep m).map Prod.fst)).Nodup := by
  intro decls
  induction decls with
  | nil => intro m hm; exact hm
  | cons d t ih =>
    intro m hm
    rw [List.foldl_cons]
    apply ih
    unfold functionStep
    split
    · exact hm
    · split
      · exact hm
      · split
        · exact hm
        · exact mapInsert_keys_nodup m _ _ hm

/-- check_unused_imports as map after filter over the imports map. -/
theorem check_unused_imports_eq (path : String) (f : GoFileModel) :
    check_unused_imports path f =
      ((buildImportsMap f.imports).filter (fun p => !(importIsUsed f p.1 p.2))).map
        (importIssue path) := by
  unfold check_unused_imports
  exact filterMap_if (fun p => importIsUsed f p.1 p.2) (importIssue path) _

/-- check_unused_functions as map after filter over the functions map. -/
theorem check_unused_functions_eq (path : String) (f : GoFileModel) :
    check_unused_functions path f =
      ((buildFunctionsMap f.func_decls).filter
        (fun p => !(f.call_identifiers.contains p.1))).map (funcIssue path f) := by
  unfold check_unused_functions
  exact filterMap_if (fun p => f.call_identifiers.contains p.1) (funcIssue path f) _

/-- Appending on the left of strings is cancellative. -/
theorem string_append_cancel {a : String} : ∀ {b c : String}, a ++ b = a ++ c → b = c := by
  intro b c h
  have hd : (a ++ b).data = (a ++ c).data := by rw [h]
  rw [String.data_append, String.data_append] at hd
  have hbc := List.append_cancel_left hd
  cases b
  cases c
  exact congrArg String.mk (by simpa using hbc)

/-! ## Claim C5 -/

/-- Claim C5, counterexample: two distinct unused import declarations
sharing their last path segment (a/util and b/util, neither referenced
anywhere, neither excluded) yield one single finding, not two: the
imports HashMap is keyed by the package name, so the second declaration
overwrites the first. -/
theorem dead_code_same_name_counterexample :
    (check_unused_imports "f.go"
      ⟨[], [⟨"\"a/util\"", none, 1, 1⟩, ⟨"\"b/util\"", none, 2, 1⟩],
        [], [], [], [], [], []⟩).length = 1 ∧
    ([⟨"\"a/util\"", none, 1, 1⟩, ⟨"\"b/util\"", none, 2, 1⟩] : List ImportSpec).length
      = 2 ∧
    usedImports ⟨[], [⟨"\"a/util\"", none, 1, 1⟩, ⟨"\"b/util\"", none, 2, 1⟩],
      [], [], [], [], [], []⟩ = [] := by
  refine ⟨?_, rfl, rfl⟩
  decide

/-- Claim C5, amended: the dead-code checks report unused declarations by
name, not by declaration site: the imports map is keyed by the last path
segment and the functions map by the function name, with a later
declaration overwriting an earlier one of the same name.  Per file there
is exactly one finding for each distinct unused key of the map (the
findings are pairwise distinct: distinct import paths, distinct function
messages), and every such finding has fix_available set. -/
theorem dead_code_one_finding_per_distinct_name :
    (∀ (path : String) (f : GoFileModel),
      ((check_unused_imports path f).map (fun i => i.code)).Nodup ∧
      (check_unused_imports path f).length =
        ((buildImportsMap f.imports).filter (fun p => !(importIsUsed f p.1 p.2))).length ∧
      ∀ i ∈ check_unused_imports path f, i.fix_available = true) ∧
    (∀ (path : String) (f : GoFileModel),
      ((check_unused_functions path f).map (fun i => i.message)).Nodup ∧
      (check_unused_functions path f).length =
        ((buildFunctionsMap f.func_decls).filter
          (fun p => !(f.call_identifiers.contains p.1))).length ∧
      ∀ i ∈ check_unused_functions path f, i.fix_available = true) := by
  constructor
  · intro path f
    refine ⟨?_, ?_, ?_⟩
    · rw [check_unused_imports_eq, List.map_map]
      show (((buildImportsMap f.imports).filter
        (fun p => !(importIsUsed f p.1 p.2))).map (fun p => p.2.import_path)).Nodup
      have hsub : List.Sublist
          (((buildImportsMap f.imports).filter
            (fun p => !(importIsUsed f p.1 p.2))).map (fun p => p.2.import_path))
          ((buildImportsMap f.imports).map (fun p => p.2.import_path)) :=
        (List.filter_sublist _).map _
      apply List.Nodup.sublist hsub
      have hkeys : ((buildImportsMap f.imports).map Prod.fst).Nodup :=
        buildImportsFold_nodup f.imports [] (by simp)
      have hpred := buildImportsFold_pred f.imports [] (by simp)
      have hmapeq : (buildImportsMap f.imports).map Prod.fst =
          ((buildImportsMap f.imports).map (fun p => p.2.import_path)).map
            extract_package_name := by
        rw [List.map_map]
        apply List.map_congr_left
        intro p hp
        exact hpred p hp
      rw [hmapeq] at hkeys
      exact hkeys.of_map
    · rw [check_unused_imports_eq, List.length_map]
    · rw [check_unused_imports_eq]
      intro i hi
      obtain ⟨p, _, hpe⟩ := List.mem_map.mp hi
      rw [← hpe]
      rfl
  · intro path f
    refine ⟨?_, ?_, ?_⟩
    · rw [check_unused_functions_eq, List.map_map]
      show (((buildFunctionsMap f.func_decls).filter
        (fun p => !(f.call_identifiers.contains p.1))).map
          (fun p => "Unused function: " ++ p.1)).Nodup
      have hcomp : ((buildFunctionsMap f.func_decls).filter
          (fun p => !(f.call_identifiers.contains p.1))).map
            (fun p => "Unused function: " ++ p.1) =
          (((buildFunctionsMap f.func_decls).filter
            (fun p => !(f.call_identifiers.contains p.1))).map Prod.fst).map
              (fun k => "Unused function: " ++ k) := by
        rw [List.map_map]
        rfl
      rw [hcomp]
      apply List.Nodup.map
      · intro a b hab
        exact string_append_cancel hab
      · apply List.Nodup.sublist ((List.filter_sublist _).map _)
        exact buildFunctionsFold_nodup f.func_decls [] (by simp)
    · rw [check_unused_functions_eq, List.length_map]
    · rw [check_unused_functions_eq]
      intro i hi
      obtain ⟨p, _, hpe⟩ := List.mem_map.mp hi
      rw [← hpe]
      rfl

/-- Claim C5, witness: the amended theorem exercised on the two-import
model of the counterexample: the single finding it produces carries
fix_available. -/
theorem dead_code_one_finding_witness :
    (importIssue "f.go" ("util", ⟨"\"b/util\"", 2, 1, none⟩)).fix_available = true :=
  (dead_code_one_finding_per_distinct_name.1 "f.go"
    ⟨[], [⟨"\"a/util\"", none, 1, 1⟩, ⟨"\"b/util\"", none, 2, 1⟩],
      [], [], [], [], [], []⟩).2.2 _ (by decide)

/-! ## Claim C6 -/

/-- A blank-identifier or wildcard alias makes the import-collection step
a no-op. -/
theorem importStep_skip (m : List (String × ImportInfo)) (spec : ImportSpec)
    (h : spec.import_alias = some "_" ∨ spec.import_alias = some ".") :
    importStep m spec = m := by
  unfold importStep
  rcases h with h | h
  · rw [if_pos (by rw [h]; rfl)]
  · rw [if_neg (by rw [h]; decide), if_pos (by rw [h]; rfl)]

/-- Removing a blank-identifier or wildcard import spec leaves the
imports map unchanged. -/
theorem buildImportsMap_skip (spec : ImportSpec)
    (h : spec.import_alias = some "_" ∨ spec.import_alias = some ".")
    (l1 l2 : List ImportSpec) :
    buildImportsMap (l1 ++ spec :: l2) = buildImportsMap (l1 ++ l2) := by
  unfold buildImportsMap
  rw [List.foldl_append, List.foldl_cons, importStep_skip _ spec h, ← List.foldl_append]

/-- A main, init or uppercase-initial name makes the function-collection
step a no-op. -/
theorem functionStep_skip (m : List (String × (Nat × Nat))) (d : FuncDecl)
    (h : d.name = "main" ∨ d.name = "init" ∨ firstCharUpper d.name = true) :
    functionStep m d = m := by
  unfold functionStep
  rcases h with h | h | h
  · rw [if_pos (by rw [h]; rfl)]
  · by_cases h1 : (d.name == "main") = true
    · rw [if_pos h1]
    · rw [if_neg h1, if_pos (by rw [h]; rfl)]
  · by_cases h1 : (d.name == "main") = true
    · rw [if_pos h1]
    · rw [if_neg h1]
      by_cases h2 : (d.name == "init") = true
      · rw [if_pos h2]
      · rw [if_neg h2, if_pos h]

/-- Removing an excluded function declaration leaves the functions map
unchanged. -/
theorem buildFunctionsMap_skip (d : FuncDecl)
    (h : d.name = "main" ∨ d.name = "init" ∨ firstCharUpper d.name = true)
    (l1 l2 : List FuncDecl) :
    buildFunctionsMap (l1 ++ d :: l2) = buildFunctionsMap (l1 ++ l2) := by
  unfold buildFunctionsMap
  rw [List.foldl_append, List.foldl_cons, functionStep_skip _ d h, ← List.foldl_append]

/-- Removing a list element the predicate rejects does not change find?. -/
theorem find?_append_skip {α : Type} (q : α → Bool) (d : α) (hd : q d = false) :
    ∀ l1 l2 : List α, List.find? q (l1 ++ d :: l2) = List.find? q (l1 ++ l2) := by
  intro l1
  induction l1 with
  | nil =>
    intro l2
    simp only [List.nil_append]
    exact List.find?_cons_of_neg _ (by simp [hd])
  | cons a t ih =>
    intro l2
    rw [List.cons_append, List.cons_append]
    by_cases ha : q a = true
    · rw [List.find?_cons_of_pos _ ha, List.find?_cons_of_pos _ ha]
    · rw [List.find?_cons_of_neg _ ha, List.find?_cons_of_neg _ ha]
      exact ih l2

/-- find_function_range ignores a declaration whose name differs from the
queried one. -/
theorem find_function_range_skip (d : FuncDecl) (k : String) (hne : d.name ≠ k)
    (l1 l2 : List FuncDecl) :
    find_function_range (l1 ++ d :: l2) k = find_function_range (l1 ++ l2) k := by
  unfold find_function_range
  rw [find?_append_skip (fun dd => dd.name == k) d (by simpa using hne) l1 l2]

/-- Claim C6: the exclusion rules are absolute.  Removing an import spec
whose alias snippet is the blank identifier or the dot wildcard from a
file leaves the unused-import findings unchanged, and removing a function
declaration named main or init or starting with an uppercase letter
leaves the unused-function findings unchanged — so no finding is ever
produced for such a declaration, regardless of whether it is referenced. -/
theorem exclusions_never_reported :
    (∀ (path : String) (f : GoFileModel) (l1 l2 : List ImportSpec) (spec : ImportSpec),
      (spec.import_alias = some "_" ∨ spec.import_alias = some ".") →
      f.imports = l1 ++ spec :: l2 →
      check_unused_imports path f =
        check_unused_imports path { f with imports := l1 ++ l2 }) ∧
    (∀ (path : String) (f : GoFileModel) (l1 l2 : List FuncDecl) (d : FuncDecl),
      (d.name = "main" ∨ d.name = "init" ∨ firstCharUpper d.name = true) →
      f.func_decls = l1 ++ d :: l2 →
      check_unused_functions path f =
        check_unused_functions path { f with func_decls := l1 ++ l2 }) := by
  constructor
  · intro path f l1 l2 spec hsp himp
    unfold check_unused_imports
    rw [himp]
    rw [buildImportsMap_skip spec hsp l1 l2]
    rfl
  · intro path f l1 l2 d hd hfd
    rw [check_unused_functions_eq, check_unused_functions_eq]
    rw [hfd, buildFunctionsMap_skip d hd l1 l2]
    have hfix : ({ f with func_decls := l1 ++ l2 } : GoFileModel).func_decls = l1 ++ l2 :=
      rfl
    apply List.map_congr_left
    intro p hp
    have hp2 : p ∈ buildFunctionsMap (l1 ++ l2) := List.mem_of_mem_filter hp
    have hinv := buildFunctionsFold_pred (l1 ++ l2) [] (by simp) p hp2
    have hne : d.name ≠ p.1 := by
      rcases hd with h | h | h
      · rw [h]
        exact fun hc => hinv.1 hc.symm
      · rw [h]
        exact fun hc => hinv.2.1 hc.symm
      · intro hc
        rw [hc, hinv.2.2] at h
        cases h
    unfold funcIssue
    rw [show ({ f with func_decls := l1 ++ l2 } : GoFileModel).func_decls = l1 ++ l2
      from rfl]
    rw [hfd, find_function_range_skip d p.1 hne l1 l2]

/-- Claim C6, witness: removing a blank-identifier import from a file
with one such import, and removing a main declaration from a file with
one such declaration, leave the respective findings unchanged. -/
theorem exclusions_never_reported_witness :
    check_unused_imports "p.go"
      ⟨[], [⟨"\"C\"", some "_", 1, 1⟩], [], [], [], [], [], []⟩ =
      check_unused_imports "p.go" ⟨[], [], [], [], [], [], [], []⟩ ∧
    check_unused_functions "p.go"
      ⟨[], [], [], [], [], [], [⟨"main", 0, 10, 1, 1⟩], []⟩ =
      check_unused_functions "p.go" ⟨[], [], [], [], [], [], [], []⟩ := by
  constructor
  · exact exclusions_never_reported.1 "p.go"
      ⟨[], [⟨"\"C\"", some "_", 1, 1⟩], [], [], [], [], [], []⟩
      [] [] ⟨"\"C\"", some "_", 1, 1⟩ (Or.inl rfl) rfl
  · exact exclusions_never_reported.2 "p.go"
      ⟨[], [], [], [], [], [], [⟨"main", 0, 10, 1, 1⟩], []⟩
      [] [] ⟨"main", 0, 10, 1, 1⟩ (Or.inl rfl) rfl

end Dioxide
